import Mathlib

/-!
Verification of the data-binding core of `baukit` (`baukit/labwidget.py`):
the `Trigger`/`Property` notification protocol, the re-entrancy guard
(`enter_handler`), the jupyter duplex transport queue of `Widget`, and the
permissive serializer `jsoncopy`.

The Python objects live on a heap of numbered objects; object identity in the
source (default `==` on `Trigger` objects, bound-method equality for
`self.handle`) becomes equality of object ids.  The methods
`Trigger.trigger/handle/notify/on/off/set` and `Property.handle/set` are
embedded as a single fuel-indexed interpreter `exec` over tasks, one task
constructor per method (Python recursion can diverge on cyclic parent chains,
so the interpreter is fuel-indexed; fuel exhaustion is reported as a distinct
error that cannot be confused with `ValueError`).  User callbacks are
abstracted by a tag, their declared arity, whether they raise when invoked,
and a list of actions they perform (re-triggering some trigger, or raising);
their invocations are journalled so that delivery can be observed.
-/

namespace Baukit

/-- Argument of `handle`: either an `Event` payload or a raw value.
`Event.__init__` unwraps nested events, so an event's `value` is a plain
value; the `name`/`target` fields of an `Event` never influence control or
data flow in the modelled methods, so they are not carried. -/
inductive HArg (α : Type) where
  | event : α → HArg α
  | raw : α → HArg α
deriving DecidableEq

/-- The unwrapping `if isinstance(value, Event): value = value.value`
performed at the top of `Trigger.handle` and `Property.handle`. -/
def HArg.unwrap {α : Type} : HArg α → α
  | .event v => v
  | .raw v => v

/-- One step performed by the body of a user callback: re-trigger some
trigger object with a value (a listener calling `t.trigger(w)`), or raise an
exception. -/
inductive UAct (α : Type) where
  | fire : Nat → α → UAct α
  | throwE : UAct α
deriving DecidableEq

/-- A registered callback: either the bound method `child.handle` (the
internal plumbing registered by `Trigger.set`), or a user callback carrying a
tag, its declared arity (`len(signature(cb).parameters) == 0`), whether it
raises as soon as it is invoked, and the actions its body performs. -/
inductive Cb (α : Type) where
  | handleOf : Nat → Cb α
  | user : Nat → Bool → Bool → List (UAct α) → Cb α
deriving DecidableEq

/-- The per-object state of a `Trigger`.  `isProp` distinguishes `Property`
instances (virtual dispatch of `handle`/`set`).  `value` is `none` while the
Python attribute `value` has never been assigned.  The `name`/`target`
fields assigned by `Model._initprop_` only feed the unused `Event`
bookkeeping and are omitted. -/
structure Obj (α : Type) where
  isProp : Bool
  listeners : List (Cb α × Bool)
  parent : Option Nat
  value : Option α
deriving DecidableEq

/-- Global state: the heap of trigger objects, the allocation counter, the
length of the process-wide `entered_handler_stack`, and three journals:
`hlog` records each `Property.handle` value commit, `ulog` each user-callback
invocation (with the value passed, or `none` for a zero-arity callback), and
`ilog` every listener invocation together with the `internal` flag it was
registered with. -/
structure St (α : Type) where
  objs : Nat → Obj α
  next : Nat
  hstack : Nat
  hlog : List (Nat × α)
  ulog : List (Nat × Option α)
  ilog : List (Cb α × Bool)

/-- Replace the object stored at id `i`. -/
def updObj {α : Type} (st : St α) (i : Nat) (o : Obj α) : St α :=
  { st with objs := fun j => if j = i then o else st.objs j }

/-- Assign `self.parent`. -/
def setParent {α : Type} (st : St α) (i : Nat) (p : Option Nat) : St α :=
  updObj st i { st.objs i with parent := p }

/-- `Trigger.on(cb, internal)`: append `(cb, internal)` to `self._listeners`. -/
def onObj {α : Type} (st : St α) (i : Nat) (cb : Cb α) (internal : Bool) : St α :=
  updObj st i { st.objs i with listeners := (st.objs i).listeners ++ [(cb, internal)] }

/-- `Trigger.off(cb)`: `self._listeners = [(c, i) for c, i in self._listeners
if c != cb and cb is not None]`.  `cb = none` models `off()` with the default
`cb=None`. -/
def offObj {α : Type} [DecidableEq α] (st : St α) (i : Nat) (cb : Option (Cb α)) : St α :=
  updObj st i { st.objs i with
    listeners := (st.objs i).listeners.filter
      (fun ci => decide (some ci.1 ≠ cb) && cb.isSome) }

/-- `Trigger.__init__` / `Property.__init__` field initialization: empty
listener list, no parent, no `value` attribute yet. -/
def blankObj {α : Type} (isProp : Bool) : Obj α :=
  ⟨isProp, [], none, none⟩

/-- Allocate a fresh object (Python object construction); returns the new
state and the id of the new object. -/
def alloc {α : Type} (st : St α) (isProp : Bool) : St α × Nat :=
  ({ st with
      objs := fun j => if j = st.next then blankObj isProp else st.objs j,
      next := st.next + 1 }, st.next)

/-- The argument of `set`: a reference to another Trigger/Property object
(`isinstance(value, Trigger)`), or any non-Trigger Python value. -/
inductive SetArg (α : Type) where
  | ref : Nat → SetArg α
  | val : α → SetArg α
deriving DecidableEq

/-- Errors: `ValueError` raised by `set`, an exception raised by a user
callback, `AttributeError` for reading a missing `value` attribute, and fuel
exhaustion of the interpreter. -/
inductive Err where
  | valueError : Err
  | userExn : Err
  | attrError : Err
  | fuelOut : Err
deriving DecidableEq

/-- The ancestor walk of `Trigger.set`: starting from `value.parent`, follow
`parent` pointers looking for `self` (`ancestor == self` is object identity).
`some true` means the loop check fired, `some false` that the chain ended,
`none` that the fuel ran out (the Python `while` diverges only on a heap that
already contains a parent cycle). -/
def ancWalk {α : Type} : Nat → St α → Nat → Option Nat → Option Bool
  | _, _, _, none => some false
  | 0, _, _, some _ => none
  | fuel + 1, st, i, some a =>
      if a = i then some true else ancWalk fuel st i ((st.objs a).parent)

/-- The detach step at the top of `Trigger.set`: `if self.parent is not
None: self.parent.off(self.handle); self.parent = None`. -/
def detachParent {α : Type} [DecidableEq α] (st : St α) (i : Nat) : St α :=
  match (st.objs i).parent with
  | some p => setParent (offObj st p (some (.handleOf i))) i none
  | none => st

/-- The remainder of `Trigger.set` after the detach, acting on the detached
state `st1`.  For a Trigger argument: run the ancestor walk from
`value.parent` and raise `ValueError` on a loop, otherwise attach
(`self.parent = value; self.parent.on(self.handle, internal=True)`).  For a
plain value: `ValueError` unless `self` is a `Property` (`isProp` is
`isinstance(self, Property)` on the caller), in which case nothing happens
(`Property.set` never reaches `Trigger.set` with a plain value). -/
def trigSetRest {α : Type} (fuel : Nat) (st1 : St α) (i : Nat) (arg : SetArg α)
    (isProp : Bool) : St α × Option Err :=
  match arg with
  | .ref r =>
      match ancWalk fuel st1 i ((st1.objs r).parent) with
      | none => (st1, some .fuelOut)
      | some true => (st1, some .valueError)
      | some false => (onObj (setParent st1 i (some r)) r (.handleOf i) true, none)
  | .val _ =>
      if isProp then (st1, none) else (st1, some .valueError)

/-- The task being interpreted; one constructor per embedded Python method,
plus the listener loop of `notify` and the body of a user callback. -/
inductive Task (α : Type) where
  | trigger : Nat → α → Task α
  | handle : Nat → HArg α → Task α
  | notify : Nat → α → Task α
  | notifyList : List (Cb α × Bool) → α → Task α
  | invoke : Cb α → α → Task α
  | runActs : List (UAct α) → Task α
  | setT : Nat → SetArg α → Task α
  | trigSet : Nat → SetArg α → Task α

/-- Fuel-indexed interpreter for the `Trigger`/`Property` methods.  Each case
mirrors the corresponding Python method body:

* `trigger`: `if self.parent is not None: self.parent.trigger(value) else:
  self.handle(value)`;
* `handle`: virtual dispatch — `Property.handle` unwraps, stores the value
  (journalled in `hlog`) and notifies; `Trigger.handle` unwraps and notifies;
* `notify`: iterates `self._listeners` via `notifyList`;
* `notifyList`: for each `(cb, internal)` runs `with enter_handler(...)`:
  silence is `(not internal) and (len(entered_handler_stack) > 0)` computed on
  entry; a silenced listener is skipped; otherwise the stack is pushed when
  the listener is not internal, the callback is invoked (journalled in
  `ilog`), and the stack is popped again on every exit path, exceptional or
  not (`__exit__` of the context manager); an exception aborts the loop;
* `invoke`: `child.handle` callbacks run `handle` on the child with the
  `Event` payload; user callbacks journal themselves in `ulog` (`none`
  payload for a zero-arity callback), then raise or run their actions;
* `setT`: virtual dispatch of `set` — `Property.set` delegates references to
  Properties to `Trigger.set` and then runs `self.handle(value.value)`,
  rejects references to plain Triggers with `ValueError`, and routes plain
  values through `self.trigger(value)`; a plain Trigger goes straight to
  `Trigger.set`;
* `trigSet`: `Trigger.set` — detach from the current parent first
  (`self.parent.off(self.handle); self.parent = None`), then for a reference
  run the ancestor walk (`ValueError` on a loop) and attach (`self.parent =
  value; self.parent.on(self.handle, internal=True)`); a plain value is a
  `ValueError` unless `self` is a `Property`, in which case it is a no-op
  here (that branch is unreachable from `Property.set`). -/
def exec {α : Type} [DecidableEq α] : Nat → Task α → St α → St α × Option Err
  | 0, _, st => (st, some .fuelOut)
  | fuel + 1, .trigger i v, st =>
      match (st.objs i).parent with
      | some p => exec fuel (.trigger p v) st
      | none => exec fuel (.handle i (.raw v)) st
  | fuel + 1, .handle i arg, st =>
      if (st.objs i).isProp then
        exec fuel (.notify i arg.unwrap)
          { updObj st i { st.objs i with value := some arg.unwrap } with
            hlog := st.hlog ++ [(i, arg.unwrap)] }
      else
        exec fuel (.notify i arg.unwrap) st
  | fuel + 1, .notify i v, st => exec fuel (.notifyList (st.objs i).listeners v) st
  | _ + 1, .notifyList [] _, st => (st, none)
  | fuel + 1, .notifyList ((cb, internal) :: rest) v, st =>
      if !internal && decide (0 < st.hstack) then
        exec fuel (.notifyList rest v) st
      else
        let stIn := if internal then st else { st with hstack := st.hstack + 1 }
        let r := exec fuel (.invoke cb v) { stIn with ilog := stIn.ilog ++ [(cb, internal)] }
        let stOut := if internal then r.1 else { r.1 with hstack := r.1.hstack - 1 }
        match r.2 with
        | some e => (stOut, some e)
        | none => exec fuel (.notifyList rest v) stOut
  | fuel + 1, .invoke (.handleOf k) v, st => exec fuel (.handle k (.event v)) st
  | fuel + 1, .invoke (.user tag arity0 throws acts) v, st =>
      let st1 := { st with ulog := st.ulog ++ [(tag, if arity0 then none else some v)] }
      if throws then (st1, some .userExn) else exec fuel (.runActs acts) st1
  | _ + 1, .runActs [], st => (st, none)
  | _ + 1, .runActs (.throwE :: _), st => (st, some .userExn)
  | fuel + 1, .runActs (.fire t w :: rest), st =>
      let r := exec fuel (.trigger t w) st
      match r.2 with
      | some e => (r.1, some e)
      | none => exec fuel (.runActs rest) r.1
  | fuel + 1, .setT i arg, st =>
      if (st.objs i).isProp then
        match arg with
        | .ref r =>
            if (st.objs r).isProp then
              let r1 := exec fuel (.trigSet i arg) st
              match r1.2 with
              | some e => (r1.1, some e)
              | none =>
                  match (r1.1.objs r).value with
                  | some w => exec fuel (.handle i (.raw w)) r1.1
                  | none => (r1.1, some .attrError)
            else (st, some .valueError)
        | .val v => exec fuel (.trigger i v) st
      else exec fuel (.trigSet i arg) st
  | fuel + 1, .trigSet i arg, st =>
      trigSetRest fuel (detachParent st i) i arg (st.objs i).isProp

/-- `Property.__init__(value)`: allocate a fresh `Property`, then
`self.set(value)`.  Returns the run of the `set` and the new object's id. -/
def newProperty {α : Type} [DecidableEq α] (fuel : Nat) (st : St α) (arg : SetArg α) :
    (St α × Option Err) × Nat :=
  ((exec fuel (.setT (alloc st true).2 arg) (alloc st true).1), (alloc st true).2)

/-- `Trigger.__init__`: allocate a fresh plain `Trigger`. -/
def newTrigger {α : Type} (st : St α) : St α × Nat :=
  alloc st false

/-- A state with no objects allocated and an empty handler stack. -/
def emptySt (α : Type) : St α :=
  ⟨fun _ => blankObj false, 0, 0, [], [], []⟩

/-- The value a `Property.handle` journal assigns to object `i` at the end of
the journal: the value of the most recent `handle` commit for `i`. -/
def lastH {α : Type} (l : List (Nat × α)) (i : Nat) : Option α :=
  l.foldl (fun acc e => if e.1 = i then some e.2 else acc) none

/-- The `Property` value invariant relating a state's heap to its `handle`
journal: every object whose most recent `Property.handle` commit stored `v`
currently holds `value = v`. -/
def ValueInv {α : Type} (st : St α) : Prop :=
  ∀ i v, lastH st.hlog i = some v → (st.objs i).value = some v

/-- A listener entry whose callback is a user callback with an empty action
body (it only journals itself and possibly raises). -/
def pureUserL {α : Type} : Cb α × Bool → Bool
  | (.user _ _ _ [], _) => true
  | _ => false

/-- A listener entry whose callback raises when invoked. -/
def throwsL {α : Type} : Cb α × Bool → Bool
  | (.user _ _ true _, _) => true
  | _ => false

/-! ### The jupyter duplex transport of `Widget`

`Widget._send_to_js_` and the `open_comm` handler registered by
`Widget._recv_from_js_` in the `WIDGET_ENV == 'jupyter'` branch.  Message
payloads (the `(id(target), name, value)` triples, already passed through
`jsoncopy`) are abstracted by a type `μ`; comms are numbered.  `sent` is the
global journal of every `comm.send(...)` call, in execution order. -/

/-- What travels on a comm: the `'ok'` handshake sent on connection open, or
an ordinary queued/relayed message. -/
inductive WireMsg (μ : Type) where
  | ok : WireMsg μ
  | data : μ → WireMsg μ
deriving DecidableEq

/-- Transport state of one `Widget`: `_viewcount`, `_comms`, `_queue`, plus
the journal of performed sends. -/
structure TState (μ : Type) where
  viewcount : Nat
  comms : List Nat
  queue : List μ
  sent : List (Nat × WireMsg μ)
deriving DecidableEq

/-- `Widget._send_to_js_`, jupyter branch: nothing happens unless a view
exists (`self._viewcount > 0`); with no open comm the message is appended to
`self._queue`; otherwise it is sent to every open comm. -/
def sendToJs {μ : Type} (st : TState μ) (m : μ) : TState μ :=
  if 0 < st.viewcount then
    if st.comms = [] then { st with queue := st.queue ++ [m] }
    else { st with sent := st.sent ++ st.comms.map (fun c => (c, .data m)) }
  else st

/-- `open_comm` in `Widget._recv_from_js_`, jupyter branch: append the comm
to `self._comms`, send the `'ok'` handshake on it, then flush `self._queue`
to it in FIFO order and clear the queue. -/
def openComm {μ : Type} (st : TState μ) (c : Nat) : TState μ :=
  { st with
      comms := st.comms ++ [c],
      sent := (st.sent ++ [(c, .ok)]) ++ st.queue.map (fun m => (c, .data m)),
      queue := [] }

/-- The sequence of payloads delivered to comm `c`, in send order. -/
def sentTo {μ : Type} (st : TState μ) (c : Nat) : List (WireMsg μ) :=
  (st.sent.filter (fun e => decide (e.1 = c))).map (fun e => e.2)

/-! ### The permissive serializer `jsoncopy`

Python data is a heap of containers referenced by ids (so that
self-referential structures exist); JSON atoms are immediate.  The descent
stack holds the ids of the containers on the current path.  The membership
test `d in stack` is CPython `list_contains`: the stack is scanned front to
back and each element is compared to `d` with
`PyObject_RichCompareBool(elem, d, Py_EQ)` — an identity fast path, then
`==`.  The `==` on lists/tuples/dicts recurses into the components (lists
and dicts first shortcut on unequal lengths, tuples walk the common prefix
first), each nesting level consuming recursion budget, so comparing two
*distinct* mutually-referential containers exhausts any recursion limit and
raises `RecursionError` — which propagates out of `jsoncopy`.  The model
makes the budget explicit: the fuel is the recursion limit, and a `none`
result is the `RecursionError` the program raises at that limit (whether
from the comparison in the membership test or from the descent itself).
Equality of objects without their own `__eq__` (`opaqueO`, the `customO`
hook carriers) is default identity.  numpy's broadcasting `__eq__` is
outside the model ­— the claim quantifies over list/tuple/dict structures —
so `arrayO` also compares by identity; `tolist()` of an array yields a
fresh acyclic tree of numbers, on which `jsoncopy` acts as the identity,
so `arrayO` carries that tree directly; likewise the result of a
`_json_repr_` hook, which the source returns without copying, is carried as
a tree by `customO`. -/

/-- JSON-style output values of `jsoncopy` (also used for the trees carried
by `arrayO`/`customO`). -/
inductive JVal where
  | nullJ : JVal
  | boolJ : Bool → JVal
  | intJ : Int → JVal
  | strJ : String → JVal
  | fltJ : String → JVal
  | arrJ : List JVal → JVal
  | objJ : List (String × JVal) → JVal

/-- The values `is_json_atom` accepts: `None`, `bool`, `int`, `str` and
`float` (floats are kept opaque, identified by their literal). -/
inductive PyAtom where
  | noneA : PyAtom
  | boolA : Bool → PyAtom
  | intA : Int → PyAtom
  | strA : String → PyAtom
  | fltA : String → PyAtom
deriving DecidableEq

/-- A Python value as seen by `jsoncopy`: a JSON atom, or a reference into
the heap of container objects. -/
inductive PyVal where
  | atom : PyAtom → PyVal
  | ref : Nat → PyVal
deriving DecidableEq

/-- A heap object: a list or tuple (the `Bool` is true for a tuple —
`jsoncopy` treats both alike via `isinstance(d, (list, tuple))`, but `==`
distinguishes them: `[1] == (1,)` is `False`), a dict, an object with a
`_json_repr_` hook, a numpy/torch array, or any other non-serializable
object. -/
inductive PyObj where
  | listO : Bool → List PyVal → PyObj
  | dictO : List (PyVal × PyVal) → PyObj
  | customO : JVal → PyObj
  | arrayO : JVal → PyObj
  | opaqueO : PyObj

/-- The heap of container objects. -/
structure PyHeap where
  objs : Nat → PyObj

/-- Python `str()` on the atoms admitted as dict keys. -/
def pyStr : PyAtom → String
  | .noneA => "None"
  | .boolA true => "True"
  | .boolA false => "False"
  | .intA n => toString n
  | .strA s => s
  | .fltA s => s

/-- A JSON atom is returned unchanged (as the corresponding JSON value). -/
def atomJ : PyAtom → JVal
  | .noneA => .nullJ
  | .boolA b => .boolJ b
  | .intA n => .intJ n
  | .strA s => .strJ s
  | .fltA s => .fltJ s

/-- Python `==` on the JSON atoms.  `bool` is an `int` subclass, so
`True == 1` and `False == 0`; strings and ints compare by value; `None`
only equals `None`; floats are opaque literals here, equal exactly to the
same literal (the `int`/`float` numeric unification and the non-reflexive
`NaN` are outside the model; no claim depends on them); atoms of other
different types are unequal. -/
def atomEq : PyAtom → PyAtom → Bool
  | .noneA, .noneA => true
  | .boolA b, .boolA c => b == c
  | .intA m, .intA k => m == k
  | .boolA b, .intA k => (if b then (1 : Int) else 0) == k
  | .intA m, .boolA b => m == (if b then (1 : Int) else 0)
  | .strA s, .strA t => s == t
  | .fltA s, .fltA t => s == t
  | _, _ => false

mutual

/-- `PyObject_RichCompareBool(v, w, Py_EQ)`: the identity fast path (two
identical objects, or equal immediates, are equal without any recursion),
then `==`.  Lists shortcut on unequal lengths before touching elements;
tuples walk the common prefix first and only then decide by length; dicts
shortcut on unequal lengths, then look every key of the left dict up in the
right one and compare the values; a list never equals a tuple; objects
without their own `__eq__` compare by identity (already covered by the fast
path, so distinct ones are unequal).  Each nesting level consumes one unit
of recursion budget; `none` is the `RecursionError` raised when the budget
runs out, as happens at every budget when two distinct mutually-referential
containers are compared. -/
def pyEqV (h : PyHeap) : Nat → PyVal → PyVal → Option Bool
  | 0, _, _ => none
  | fuel + 1, v, w =>
      if v = w then some true
      else
        match v, w with
        | .atom a, .atom b => some (atomEq a b)
        | .atom _, .ref _ => some false
        | .ref _, .atom _ => some false
        | .ref r, .ref q =>
            match h.objs r, h.objs q with
            | .listO t es, .listO t2 es2 =>
                if t != t2 then some false
                else if !t && es.length != es2.length then some false
                else pyEqSeq h fuel es es2
            | .dictO kvs, .dictO kvs2 =>
                if kvs.length != kvs2.length then some false
                else pyEqEntries h fuel kvs kvs2
            | _, _ => some false

/-- The element loop of list/tuple `==`: compare pairwise with
`PyObject_RichCompareBool` until a pair differs or a sequence ends; with
the common prefix equal, the verdict is by length. -/
def pyEqSeq (h : PyHeap) (fuel : Nat) : List PyVal → List PyVal → Option Bool
  | [], [] => some true
  | [], _ :: _ => some false
  | _ :: _, [] => some false
  | e :: es, f :: fs =>
      match pyEqV h fuel e f with
      | none => none
      | some false => some false
      | some true => pyEqSeq h fuel es fs

/-- Key lookup inside dict `==` (abstracting the hash table as a scan):
`some none` means the key is absent, `some (some v)` yields its value,
`none` is a `RecursionError` from a key comparison. -/
def pyLookup (h : PyHeap) (fuel : Nat) : List (PyVal × PyVal) → PyVal → Option (Option PyVal)
  | [], _ => some none
  | (k2, v2) :: rest, k =>
      match pyEqV h fuel k2 k with
      | none => none
      | some true => some (some v2)
      | some false => pyLookup h fuel rest k

/-- The entry loop of dict `==` (lengths already known equal): every key of
the left dict must be present in the right one with an equal value. -/
def pyEqEntries (h : PyHeap) (fuel : Nat) :
    List (PyVal × PyVal) → List (PyVal × PyVal) → Option Bool
  | [], _ => some true
  | (k, v) :: rest, kvs2 =>
      match pyLookup h fuel kvs2 k with
      | none => none
      | some none => some false
      | some (some v2) =>
          match pyEqV h fuel v v2 with
          | none => none
          | some false => some false
          | some true => pyEqEntries h fuel rest kvs2

end

/-- The membership test `d in stack` (CPython `list_contains`): scan the
stack front to back — oldest ancestor first — comparing each element to `d`
with `PyObject_RichCompareBool`; `d` is a container here, so both sides are
heap references.  A comparison that exceeds the recursion budget aborts the
whole test with `RecursionError` (`none`). -/
def pyIn (h : PyHeap) (fuel : Nat) : List Nat → Nat → Option Bool
  | [], _ => some false
  | s :: rest, r =>
      match pyEqV h fuel (.ref s) (.ref r) with
      | none => none
      | some true => some true
      | some false => pyIn h fuel rest r

mutual

/-- `jsoncopy(d, stack)`.  The `Option (List Nat)` argument is the Python
`stack` parameter (`none` models the default `stack=None` of the root call,
which installs a fresh empty stack and skips the membership test).  The
Python `stack.append(d)` / `stack.pop()` bracket around the recursion is
functional here: children receive the extended stack.  The fuel is the
recursion budget (CPython's recursion limit); a `none` result is the
`RecursionError` the call raises at that budget, be it from the `==`
comparisons inside the `d in stack` membership test or from the descent
itself. -/
def jsoncopyF (h : PyHeap) : Nat → PyVal → Option (List Nat) → Option JVal
  | _, .atom a, _ => some (atomJ a)
  | 0, .ref _, _ => none
  | fuel + 1, .ref r, stck =>
      let test : Option Bool :=
        match stck with
        | none => some false
        | some stack => pyIn h fuel stack r
      match test with
      | none => none
      | some true => some .nullJ
      | some false =>
          match h.objs r with
          | .listO _ elems => (jsoncopyList h fuel elems (stck.getD [] ++ [r])).map .arrJ
          | .dictO entries => (jsoncopyDict h fuel entries (stck.getD [] ++ [r])).map .objJ
          | .customO j => some j
          | .arrayO j => some j
          | .opaqueO => some .nullJ

/-- The list comprehension `[jsoncopy(e, stack) for e in d]`. -/
def jsoncopyList (h : PyHeap) (fuel : Nat) : List PyVal → List Nat → Option (List JVal)
  | [], _ => some []
  | e :: rest, stack =>
      match jsoncopyF h fuel e (some stack) with
      | none => none
      | some j =>
          match jsoncopyList h fuel rest stack with
          | none => none
          | some js => some (j :: js)

/-- The dict comprehension `{str(k): jsoncopy(v, stack) for k, v in
d.items() if is_json_atom(k)}`: non-atom keys are dropped, atom keys are
stringified, values are copied recursively. -/
def jsoncopyDict (h : PyHeap) (fuel : Nat) :
    List (PyVal × PyVal) → List Nat → Option (List (String × JVal))
  | [], _ => some []
  | (.atom a, v) :: rest, stack =>
      match jsoncopyF h fuel v (some stack) with
      | none => none
      | some j =>
          match jsoncopyDict h fuel rest stack with
          | none => none
          | some js => some ((pyStr a, j) :: js)
  | (.ref _, _) :: rest, stack => jsoncopyDict h fuel rest stack

end

/-- Bound on the heap id a value may reference. -/
def refBound (n : Nat) : PyVal → Bool
  | .ref r => decide (r < n)
  | .atom _ => true

/-- The heap ids a value references (none for an atom). -/
def valRefs : PyVal → List Nat
  | .atom _ => []
  | .ref r => [r]

/-- The heap ids directly reachable from an object: list/tuple elements,
dict keys and values (`jsoncopy` never recurses into keys, but the `==`
inside its membership test does). -/
def objChildRefs : PyObj → List Nat
  | .listO _ es => es.flatMap valRefs
  | .dictO kvs => kvs.flatMap (fun kv => valRefs kv.1 ++ valRefs kv.2)
  | _ => []

/-- An acyclic finite heap, witnessed by a rank: the first `n` objects only
reference ids below `n`, and the rank strictly decreases along every child
edge.  Such a rank (with values below `n`) exists exactly when the reference
graph on the first `n` objects is acyclic. -/
def RankedWF (h : PyHeap) (n : Nat) (rk : Nat → Nat) : Prop :=
  (∀ r, r < n → rk r < n) ∧
  (∀ r, r < n → ∀ c ∈ objChildRefs (h.objs r), c < n ∧ rk c < rk r)

/-- The rank of a value: one more than its referent's rank, so that a
child value's rank is at most its container's rank. -/
def rkV (rk : Nat → Nat) : PyVal → Nat
  | .atom _ => 0
  | .ref r => rk r + 1

/-! ### Concrete scenario states used by individual claims -/

/-- A single plain `Trigger` (id 0) with one ordinary (non-internal) user
listener, tag 7, registered via `on`. -/
def c1Reg : St Int :=
  onObj (newTrigger (emptySt Int)).1 0 (.user 7 false false []) false

/-- The state `c1Reg` after `off()` with no argument. -/
def c1Off : St Int :=
  offObj c1Reg 0 none

/-- `a = Property(1)` (id 0). -/
def c5A : (St Int × Option Err) × Nat := newProperty 9 (emptySt Int) (.val 1)

/-- `b = Property(2)` (id 1), allocated after `a`. -/
def c5B : (St Int × Option Err) × Nat := newProperty 9 c5A.1.1 (.val 2)

/-- The state after `a.set(b)`. -/
def c5Bind : St Int × Option Err := exec 12 (.setT 0 (.ref 1)) c5B.1.1

/-- The state after the subsequent `b.set(99)`. -/
def c5Fin : St Int × Option Err := exec 12 (.setT 1 (.val 99)) c5Bind.1

/-- Properties `A` (id 0) and `B` (id 1) after `A.set(B)`: the input state of
the attempted `B.set(A)`. -/
def c2AB : St Int :=
  (exec 12 (.setT 0 (.ref 1)) c5B.1.1).1

/-- Two plain Triggers 0 and 1 with `0.parent == 1` (the state after
`t0.set(t1)`). -/
def c8St : St Int :=
  (exec 10 (.trigSet 0 (.ref 1)) (newTrigger (newTrigger (emptySt Int)).1).1).1

/-- How one run may change the guard-related state: the handler stack is
restored, and the listener-invocation journal grows by a suffix whose entries
are all internal listeners whenever the run started with a non-empty handler
stack. -/
def GuardExt {α : Type} (st st' : St α) : Prop :=
  st'.hstack = st.hstack ∧
  ∃ d, st'.ilog = st.ilog ++ d ∧ (0 < st.hstack → ∀ e ∈ d, e.2 = true)

/-- Two plain triggers: trigger 0 has a non-internal user listener (tag 10)
whose body re-triggers trigger 1; trigger 1 has a non-internal user listener
(tag 20) and an internal user listener (tag 30). -/
def c3St : St Int :=
  onObj (onObj (onObj (newTrigger (newTrigger (emptySt Int)).1).1
    0 (.user 10 false false [.fire 1 7]) false)
    1 (.user 20 false false []) false)
    1 (.user 30 false false []) true

/-- The same object graph as `c3St`, observed while an outermost handler is
already in progress (non-empty `entered_handler_stack`). -/
def c3Nested : St Int :=
  { c3St with hstack := 1 }

/-- `p = Property(1)` (id 0), used by the C4 witness. -/
def c4St : St Int :=
  (newProperty 9 (emptySt Int) (.val 1)).1.1

/-- `p = Property(0)` (id 0) with two non-internal user listeners: tag 1
well-behaved, tag 2 raising when invoked. -/
def c6St : St Int :=
  onObj (onObj (newProperty 9 (emptySt Int) (.val 0)).1.1
    0 (.user 1 false false []) false)
    0 (.user 2 false true []) false

/-- `q = Property(5)` (id 0), used by the C9 witness as the parent passed to
a new `Property(q)`. -/
def c9Base : St Int :=
  (newProperty 9 (emptySt Int) (.val 5)).1.1

/-- A one-object heap whose object 0 is the self-referential list
`x = [x]`. -/
def cycHeap : PyHeap :=
  ⟨fun _ => .listO false [.ref 0]⟩

/-- The mutually cyclic pair `a = [n]`, `n = [a]` (two distinct objects,
ids 0 and 1, each the ancestor of the other when descending). -/
def mutualCycleHeap : PyHeap :=
  ⟨fun r => if r = 0 then .listO false [.ref 1] else .listO false [.ref 0]⟩

/-- The pair `p = [c]`, `c = [c]`: id 0 is `p`, id 1 is `c` (every other id
also maps to `[c]`, but only ids 0 and 1 are reachable from `p`).  Here
`c == p` holds — both are one-element lists whose elements are identical —
although `c` is not on the descent path when it is first visited. -/
def spuriousHeap : PyHeap :=
  ⟨fun _ => .listO false [.ref 1]⟩

/-- A two-object acyclic heap: object 0 is the list `[t, 7]` where `t` is
object 1, the tuple `(None,)`. -/
def lin2Heap : PyHeap :=
  ⟨fun r => if r = 0 then .listO false [.ref 1, .atom (.intA 7)]
            else .listO true [.atom .noneA]⟩

/-- A rank witnessing that `lin2Heap` is acyclic. -/
def lin2Rank : Nat → Nat :=
  fun r => if r = 0 then 1 else 0

/-- The call raises `RecursionError` at every recursion limit: no choice of
budget makes it return a result. -/
def RaisesAtEveryLimit (h : PyHeap) (d : PyVal) : Prop :=
  ∀ fuel, jsoncopyF h fuel d none = none

/-! ### Helper lemmas about the heap primitives -/

theorem updObj_objs {α : Type} (st : St α) (i : Nat) (o : Obj α) (j : Nat) :
    (updObj st i o).objs j = if j = i then o else st.objs j := rfl

theorem updObj_next {α : Type} (st : St α) (i : Nat) (o : Obj α) :
    (updObj st i o).next = st.next := rfl

theorem updObj_hstack {α : Type} (st : St α) (i : Nat) (o : Obj α) :
    (updObj st i o).hstack = st.hstack := rfl

theorem updObj_hlog {α : Type} (st : St α) (i : Nat) (o : Obj α) :
    (updObj st i o).hlog = st.hlog := rfl

theorem updObj_ulog {α : Type} (st : St α) (i : Nat) (o : Obj α) :
    (updObj st i o).ulog = st.ulog := rfl

theorem updObj_ilog {α : Type} (st : St α) (i : Nat) (o : Obj α) :
    (updObj st i o).ilog = st.ilog := rfl

theorem offObj_listeners {α : Type} [DecidableEq α] (st : St α) (i : Nat) (cb : Option (Cb α)) :
    ((offObj st i cb).objs i).listeners
      = (st.objs i).listeners.filter (fun ci => decide (some ci.1 ≠ cb) && cb.isSome) := by
  simp [offObj, updObj_objs]

theorem offObj_some_listeners {α : Type} [DecidableEq α] (st : St α) (i : Nat) (cb : Cb α) :
    ((offObj st i (some cb)).objs i).listeners
      = (st.objs i).listeners.filter (fun ci => decide (ci.1 ≠ cb)) := by
  rw [offObj_listeners]
  exact List.filter_congr (fun ci _ => by simp)

theorem offObj_none_listeners {α : Type} [DecidableEq α] (st : St α) (i : Nat) :
    ((offObj st i none).objs i).listeners = [] := by
  rw [offObj_listeners]
  simp

/-- Firing a trigger that has no parent and no listeners performs no user
callback invocation, whatever the fuel. -/
theorem trigger_no_listeners_ulog {α : Type} [DecidableEq α]
    (fuel : Nat) (st : St α) (i : Nat) (v : α)
    (hpar : (st.objs i).parent = none) (hls : (st.objs i).listeners = []) :
    (exec fuel (.trigger i v) st).1.ulog = st.ulog := by
  match fuel with
  | 0 => rfl
  | 1 => simp [exec, hpar]
  | 2 =>
      by_cases hp : (st.objs i).isProp
      all_goals simp [exec, hpar, hp, updObj_ulog]
  | 3 =>
      by_cases hp : (st.objs i).isProp
      all_goals simp [exec, hpar, hp, updObj_ulog]
  | (n + 4) =>
      by_cases hp : (st.objs i).isProp
      all_goals simp [exec, hpar, hp, hls, updObj_objs, updObj_ulog]

theorem setParent_listeners {α : Type} (st : St α) (i : Nat) (q : Option Nat) (j : Nat) :
    ((setParent st i q).objs j).listeners = (st.objs j).listeners := by
  by_cases h : j = i
  all_goals simp [setParent, updObj_objs, h]

theorem setParent_parent_self {α : Type} (st : St α) (i : Nat) (q : Option Nat) :
    ((setParent st i q).objs i).parent = q := by
  simp [setParent, updObj_objs]

theorem offObj_parent {α : Type} [DecidableEq α] (st : St α) (i : Nat)
    (cb : Option (Cb α)) (j : Nat) :
    ((offObj st i cb).objs j).parent = (st.objs j).parent := by
  by_cases h : j = i
  all_goals simp [offObj, updObj_objs, h]

theorem onObj_parent {α : Type} (st : St α) (i : Nat) (cb : Cb α) (b : Bool) (j : Nat) :
    ((onObj st i cb b).objs j).parent = (st.objs j).parent := by
  by_cases h : j = i
  all_goals simp [onObj, updObj_objs, h]

theorem offObj_ulog {α : Type} [DecidableEq α] (st : St α) (i : Nat) (cb : Option (Cb α)) :
    (offObj st i cb).ulog = st.ulog := rfl

theorem onObj_ulog {α : Type} (st : St α) (i : Nat) (cb : Cb α) (b : Bool) :
    (onObj st i cb b).ulog = st.ulog := rfl

/-! ## Claim theorems -/

/-- C1, counterexample.  The claim says that after registering a callback via
`on` and then calling `off()` with no argument, the callback is still invoked
at the next fire.  On the concrete trigger `c1Reg` (one registered user
callback, tag 7), `off()` empties the listener list, and firing invokes
nothing — while firing without the `off()` does invoke the callback. -/
theorem c1_counterexample :
    (c1Off.objs 0).listeners = [] ∧
    (exec 10 (.trigger 0 (3 : Int)) c1Off).1.ulog = [] ∧
    (exec 10 (.trigger 0 (3 : Int)) c1Reg).1.ulog = [(7, some 3)] := by
  decide

/-- C1, amended.  `off()` with no callback argument (`cb=None`) removes every
listener (the filter `c != cb and cb is not None` keeps nothing when `cb` is
`None`): it is a mass-clear, not a no-op.  Consequently a callback registered
via `on` and followed by `off()` with no argument is not invoked when the
trigger next fires (no user callback runs at all). -/
theorem c1_off_none_mass_clears {α : Type} [DecidableEq α] :
    (∀ (st : St α) (i : Nat), ((offObj st i none).objs i).listeners = []) ∧
    (∀ (fuel : Nat) (st : St α) (i : Nat) (cb : Cb α) (intl : Bool) (v : α),
      (st.objs i).parent = none →
      (exec fuel (.trigger i v) (offObj (onObj st i cb intl) i none)).1.ulog
        = st.ulog) := by
  refine ⟨fun st i => offObj_none_listeners st i, ?_⟩
  intro fuel st i cb intl v hpar
  have h1 : ((offObj (onObj st i cb intl) i none).objs i).parent = (st.objs i).parent := by
    rw [offObj_parent, onObj_parent]
  rw [trigger_no_listeners_ulog fuel _ i v (by rw [h1]; exact hpar)
    (offObj_none_listeners _ i)]
  rfl

/-- C1 witness: the amended statement applied to the concrete one-listener
trigger of the counterexample scenario. -/
theorem c1_witness :
    (((newTrigger (emptySt Int)).1.objs 0).parent = none) ∧
    (exec 10 (.trigger 0 (3 : Int))
        (offObj (onObj (newTrigger (emptySt Int)).1 0 (.user 7 false false []) false) 0 none)).1.ulog
      = (newTrigger (emptySt Int)).1.ulog :=
  ⟨by decide, (@c1_off_none_mass_clears Int _).2 10 (newTrigger (emptySt Int)).1 0
    (.user 7 false false []) false 3 (by decide)⟩

/-- C2, counterexample.  The claim demands a `ValueError` whenever the
assignment would create a cycle, including `t` appearing among `v` itself.
But the ancestor walk of `Trigger.set` starts at `value.parent`, so `t.set(t)`
on a fresh plain trigger silently installs a self-loop (`t.parent == t`) and
raises nothing. -/
theorem c2_counterexample :
    (exec 10 (.setT 0 (.ref 0)) (newTrigger (emptySt Int)).1).2 = none ∧
    ((exec 10 (.setT 0 (.ref 0)) (newTrigger (emptySt Int)).1).1.objs 0).parent = some 0 := by
  decide

/-- C2, amended.  If `t` currently has no parent and occurs among the proper
ancestors of `v` (the walk from `v.parent`), then `t.set(v)` for Properties
`t`, `v` raises `ValueError` and leaves the entire state unchanged; the
self-assignment `t.set(t)` is the one cycle the walk does not see (see the
counterexample).  In the scenario `A.set(B)` then `B.set(A)`, `B` has no
parent and `A.parent == B`, so the hypotheses hold and both bindings are
untouched. -/
theorem c2_cycle_rejected {α : Type} [DecidableEq α] (f : Nat) (st : St α) (t v : Nat)
    (hpt : (st.objs t).isProp = true) (hpv : (st.objs v).isProp = true)
    (hnop : (st.objs t).parent = none)
    (hanc : ancWalk f st t ((st.objs v).parent) = some true) :
    exec (f + 2) (.setT t (.ref v)) st = (st, some .valueError) := by
  show exec (f + 1 + 1) (.setT t (.ref v)) st = (st, some .valueError)
  simp [exec, detachParent, trigSetRest, hpt, hpv, hnop, hanc]

/-- C2 witness: the concrete `A.set(B); B.set(A)` scenario of the claim, with
`A = Property(1)` (id 0) and `B = Property(2)` (id 1). -/
theorem c2_witness :
    ((c2AB.objs 1).isProp = true ∧ (c2AB.objs 0).isProp = true ∧
      (c2AB.objs 1).parent = none ∧ ancWalk 3 c2AB 1 ((c2AB.objs 0).parent) = some true) ∧
    exec 5 (.setT 1 (.ref 0)) c2AB = (c2AB, some .valueError) :=
  ⟨⟨by decide, by decide, by decide, by decide⟩,
    c2_cycle_rejected 3 c2AB 1 0 (by decide) (by decide) (by decide) (by decide)⟩

/-- C5: `a = Property(1)` (id 0), `b = Property(2)` (id 1); after `a.set(b)`
the run succeeds, `a.value == 2`, `a.parent == b` and `a.handle` is
registered as the (only) internal listener on `b`; after the subsequent
`b.set(99)`, `a.value == 99` (and `b.value == 99`).  The `handle` journal
shows the V-shaped mechanism: each value is committed at the root first and
then at the child through the internally registered `handle`
(`[(a,1), (b,2), (a,2), (b,99), (a,99)]`). -/
theorem c5_parent_propagation :
    c5A.2 = 0 ∧ c5B.2 = 1 ∧ c5A.1.2 = none ∧ c5B.1.2 = none ∧
    c5Bind.2 = none ∧ (c5Bind.1.objs 0).value = some 2 ∧
    (c5Bind.1.objs 0).parent = some 1 ∧
    (c5Bind.1.objs 1).listeners = [(.handleOf 0, true)] ∧
    c5Fin.2 = none ∧ (c5Fin.1.objs 0).value = some 99 ∧
    (c5Fin.1.objs 1).value = some 99 ∧
    c5Fin.1.hlog = [(0, 1), (1, 2), (0, 2), (1, 99), (0, 99)] := by
  decide

/-- C7: with at least one rendered view and no open comm, `_send_to_js_`
appends the message to the queue (and sends nothing); `open_comm` sends the
`ok` handshake, flushes the whole queue to the new comm in FIFO order and
empties it; hence sending three messages before the connection opens and one
after delivers, on that comm, exactly the handshake, the three queued
messages in original order, and then the later message. -/
theorem c7_transport_queueing {μ : Type} :
    (∀ (st : TState μ) (m : μ), 0 < st.viewcount → st.comms = [] →
      sendToJs st m = { st with queue := st.queue ++ [m] }) ∧
    (∀ (st : TState μ) (c : Nat),
      (openComm st c).queue = [] ∧
      (openComm st c).sent
        = (st.sent ++ [(c, .ok)]) ++ st.queue.map (fun m => (c, .data m))) ∧
    (∀ (st : TState μ) (c : Nat) (m1 m2 m3 m4 : μ),
      0 < st.viewcount → st.comms = [] → st.queue = [] →
      sentTo (sendToJs (openComm (sendToJs (sendToJs (sendToJs st m1) m2) m3) c) m4) c
        = sentTo st c ++ [.ok, .data m1, .data m2, .data m3, .data m4]) := by
  refine ⟨?_, fun st c => ⟨rfl, rfl⟩, ?_⟩
  · intro st m h1 h2
    simp [sendToJs, h1, h2]
  · intro st c m1 m2 m3 m4 h1 h2 h3
    simp [sendToJs, openComm, sentTo, h1, h2, h3, List.filter_append]

/-- C7 witness: the three-message scenario on a concrete widget transport
state with one rendered view, no comms and an empty queue. -/
theorem c7_witness :
    (0 < (⟨1, [], [], []⟩ : TState Nat).viewcount ∧
      (⟨1, [], [], []⟩ : TState Nat).comms = [] ∧
      (⟨1, [], [], []⟩ : TState Nat).queue = []) ∧
    sentTo (sendToJs (openComm (sendToJs (sendToJs
        (sendToJs (⟨1, [], [], []⟩ : TState Nat) 11) 12) 13) 5) 14) 5
      = sentTo (⟨1, [], [], []⟩ : TState Nat) 5
          ++ [.ok, .data 11, .data 12, .data 13, .data 14] :=
  ⟨⟨by decide, by decide, by decide⟩,
    c7_transport_queueing.2.2 ⟨1, [], [], []⟩ 5 11 12 13 14 (by decide) (by decide) (by decide)⟩

/-- C8: a plain (non-Property) Trigger `t` with a current parent `p`, set to
a non-Trigger value, raises `ValueError` — but only after `Trigger.set` has
already detached `t` from `p`: afterwards `t.parent` is `None` and every
`t.handle` entry has been removed from `p`'s listener list.  The binding is
not left unchanged on this error. -/
theorem c8_set_value_detaches_then_raises {α : Type} [DecidableEq α]
    (f : Nat) (st : St α) (t p : Nat) (v : α)
    (hnp : (st.objs t).isProp = false) (hpar : (st.objs t).parent = some p) :
    (exec (f + 2) (.setT t (.val v)) st).2 = some .valueError ∧
    ((exec (f + 2) (.setT t (.val v)) st).1.objs t).parent = none ∧
    ((exec (f + 2) (.setT t (.val v)) st).1.objs p).listeners
      = (st.objs p).listeners.filter (fun ci => decide (ci.1 ≠ .handleOf t)) := by
  have h : exec (f + 2) (.setT t (.val v)) st
      = (setParent (offObj st p (some (.handleOf t))) t none, some .valueError) := by
    show exec (f + 1 + 1) (.setT t (.val v)) st = _
    simp [exec, detachParent, trigSetRest, hnp, hpar]
  rw [h]
  refine ⟨rfl, setParent_parent_self _ t none, ?_⟩
  rw [setParent_listeners, offObj_some_listeners]

/-! ### Field-preservation lemmas for the listener/parent primitives -/

theorem offObj_value {α : Type} [DecidableEq α] (st : St α) (i : Nat)
    (cb : Option (Cb α)) (j : Nat) :
    ((offObj st i cb).objs j).value = (st.objs j).value := by
  by_cases h : j = i
  all_goals simp [offObj, updObj_objs, h]

theorem offObj_isProp {α : Type} [DecidableEq α] (st : St α) (i : Nat)
    (cb : Option (Cb α)) (j : Nat) :
    ((offObj st i cb).objs j).isProp = (st.objs j).isProp := by
  by_cases h : j = i
  all_goals simp [offObj, updObj_objs, h]

theorem onObj_value {α : Type} (st : St α) (i : Nat) (cb : Cb α) (b : Bool) (j : Nat) :
    ((onObj st i cb b).objs j).value = (st.objs j).value := by
  by_cases h : j = i
  all_goals simp [onObj, updObj_objs, h]

theorem onObj_isProp {α : Type} (st : St α) (i : Nat) (cb : Cb α) (b : Bool) (j : Nat) :
    ((onObj st i cb b).objs j).isProp = (st.objs j).isProp := by
  by_cases h : j = i
  all_goals simp [onObj, updObj_objs, h]

theorem setParent_value {α : Type} (st : St α) (i : Nat) (q : Option Nat) (j : Nat) :
    ((setParent st i q).objs j).value = (st.objs j).value := by
  by_cases h : j = i
  all_goals simp [setParent, updObj_objs, h]

theorem setParent_isProp {α : Type} (st : St α) (i : Nat) (q : Option Nat) (j : Nat) :
    ((setParent st i q).objs j).isProp = (st.objs j).isProp := by
  by_cases h : j = i
  all_goals simp [setParent, updObj_objs, h]

/-- `detachParent` only rewires listeners/parent pointers: every other
component of the state, and the `value`/`isProp` of every object, are
untouched. -/
theorem detachParent_fields {α : Type} [DecidableEq α] (st : St α) (i : Nat) :
    (detachParent st i).hstack = st.hstack ∧ (detachParent st i).ilog = st.ilog ∧
    (detachParent st i).ulog = st.ulog ∧ (detachParent st i).hlog = st.hlog ∧
    (detachParent st i).next = st.next ∧
    (∀ j, ((detachParent st i).objs j).value = (st.objs j).value) ∧
    (∀ j, ((detachParent st i).objs j).isProp = (st.objs j).isProp) := by
  unfold detachParent
  cases hpp : (st.objs i).parent with
  | none => exact ⟨rfl, rfl, rfl, rfl, rfl, fun _ => rfl, fun _ => rfl⟩
  | some p =>
      refine ⟨rfl, rfl, rfl, rfl, rfl, fun j => ?_, fun j => ?_⟩
      · rw [setParent_value, offObj_value]
      · rw [setParent_isProp, offObj_isProp]

/-- `trigSetRest` likewise only rewires listeners/parent pointers of the
detached state it acts on. -/
theorem trigSetRest_fields {α : Type} (fuel : Nat) (st1 : St α) (i : Nat)
    (arg : SetArg α) (b : Bool) :
    (trigSetRest fuel st1 i arg b).1.hstack = st1.hstack ∧
    (trigSetRest fuel st1 i arg b).1.ilog = st1.ilog ∧
    (trigSetRest fuel st1 i arg b).1.ulog = st1.ulog ∧
    (trigSetRest fuel st1 i arg b).1.hlog = st1.hlog ∧
    (trigSetRest fuel st1 i arg b).1.next = st1.next ∧
    (∀ j, ((trigSetRest fuel st1 i arg b).1.objs j).value = (st1.objs j).value) ∧
    (∀ j, ((trigSetRest fuel st1 i arg b).1.objs j).isProp = (st1.objs j).isProp) := by
  cases arg with
  | ref r =>
      rcases hW : ancWalk fuel st1 i ((st1.objs r).parent) with _ | bb
      · simp [trigSetRest, hW]
      · cases bb
        · simp only [trigSetRest, hW]
          refine ⟨rfl, rfl, rfl, rfl, rfl, fun j => ?_, fun j => ?_⟩
          · rw [onObj_value, setParent_value]
          · rw [onObj_isProp, setParent_isProp]
        · simp [trigSetRest, hW]
  | val v =>
      cases b
      · simp [trigSetRest]
      · simp [trigSetRest]

/-! ### The re-entrancy guard (C3) -/

theorem guardExt_refl {α : Type} (st : St α) : GuardExt st st :=
  ⟨rfl, [], by simp, fun _ e he => absurd he (List.not_mem_nil e)⟩

theorem guardExt_of_fields {α : Type} {st st' : St α}
    (hh : st'.hstack = st.hstack) (hi : st'.ilog = st.ilog) : GuardExt st st' :=
  ⟨hh, [], by simp [hi], fun _ e he => absurd he (List.not_mem_nil e)⟩

theorem guardExt_trans {α : Type} {st1 st2 st3 : St α}
    (h12 : GuardExt st1 st2) (h23 : GuardExt st2 st3) : GuardExt st1 st3 := by
  obtain ⟨hh12, d1, hi1, hc1⟩ := h12
  obtain ⟨hh23, d2, hi2, hc2⟩ := h23
  refine ⟨hh23.trans hh12, d1 ++ d2, ?_, ?_⟩
  · rw [hi2, hi1, List.append_assoc]
  · intro hpos e he
    rcases List.mem_append.1 he with h | h
    · exact hc1 hpos e h
    · exact hc2 (by rw [hh12]; exact hpos) e h

/-- The push/invoke/pop bracket of one non-internal listener at top level
(`entered_handler_stack` empty before): the stack is restored after the pop,
whatever the callback did. -/
theorem guardExt_pushpop {α : Type} {st mid : St α} (cb : Cb α)
    (hz : st.hstack = 0)
    (hG : GuardExt { st with hstack := st.hstack + 1, ilog := st.ilog ++ [(cb, false)] } mid) :
    GuardExt st { mid with hstack := mid.hstack - 1 } := by
  obtain ⟨hh, d, hi, _⟩ := hG
  refine ⟨?_, (cb, false) :: d, ?_, ?_⟩
  · show mid.hstack - 1 = st.hstack
    rw [hh]
    simp
  · show mid.ilog = st.ilog ++ ((cb, false) :: d)
    rw [hi]
    simp
  · intro hpos
    rw [hz] at hpos
    exact absurd hpos (lt_irrefl 0)

/-- Master lemma for the guard: any run restores the handler stack on every
exit path (normal or exceptional), and if it starts with a non-empty handler
stack, every listener invocation it journals is of an internal listener. -/
theorem execGuard {α : Type} [DecidableEq α] :
    ∀ (fuel : Nat) (t : Task α) (st : St α), GuardExt st (exec fuel t st).1 := by
  intro fuel
  induction fuel with
  | zero => intro t st; exact guardExt_refl st
  | succ f ih =>
    intro t st
    cases t with
    | trigger i v =>
        cases hp : (st.objs i).parent with
        | some p =>
            have hE : exec (f + 1) (.trigger i v) st = exec f (.trigger p v) st := by
              simp [exec, hp]
            rw [hE]; exact ih _ st
        | none =>
            have hE : exec (f + 1) (.trigger i v) st = exec f (.handle i (.raw v)) st := by
              simp [exec, hp]
            rw [hE]; exact ih _ st
    | handle i arg =>
        by_cases hp : (st.objs i).isProp
        · have hE : exec (f + 1) (.handle i arg) st
              = exec f (.notify i arg.unwrap)
                  { updObj st i { st.objs i with value := some arg.unwrap } with
                    hlog := st.hlog ++ [(i, arg.unwrap)] } := by
            simp [exec, hp]
          rw [hE]
          exact guardExt_trans (guardExt_of_fields rfl rfl) (ih _ _)
        · have hE : exec (f + 1) (.handle i arg) st = exec f (.notify i arg.unwrap) st := by
            simp [exec, hp]
          rw [hE]; exact ih _ st
    | notify i v =>
        have hE : exec (f + 1) (.notify i v) st
            = exec f (.notifyList (st.objs i).listeners v) st := rfl
        rw [hE]; exact ih _ st
    | notifyList ls v =>
        cases ls with
        | nil => exact guardExt_refl st
        | cons head rest =>
            obtain ⟨cb, intl⟩ := head
            by_cases hsil : (!intl && decide (0 < st.hstack)) = true
            · have hE : exec (f + 1) (.notifyList ((cb, intl) :: rest) v) st
                  = exec f (.notifyList rest v) st := by
                simp only [exec, hsil, if_true]
              rw [hE]; exact ih _ st
            · cases intl with
              | true =>
                  have hIn : GuardExt st { st with ilog := st.ilog ++ [(cb, true)] } :=
                    ⟨rfl, [(cb, true)], rfl, fun _ e he => by
                      simp only [List.mem_singleton] at he
                      subst he
                      rfl⟩
                  have hG1 := guardExt_trans hIn
                    (ih (.invoke cb v) { st with ilog := st.ilog ++ [(cb, true)] })
                  cases he : (exec f (.invoke cb v)
                      { st with ilog := st.ilog ++ [(cb, true)] }).2 with
                  | some e =>
                      have hE : exec (f + 1) (.notifyList ((cb, true) :: rest) v) st
                          = ((exec f (.invoke cb v)
                              { st with ilog := st.ilog ++ [(cb, true)] }).1, some e) := by
                        simp [exec, he]
                      rw [hE]; exact hG1
                  | none =>
                      have hE : exec (f + 1) (.notifyList ((cb, true) :: rest) v) st
                          = exec f (.notifyList rest v)
                              (exec f (.invoke cb v)
                                { st with ilog := st.ilog ++ [(cb, true)] }).1 := by
                        simp [exec, he]
                      rw [hE]; exact guardExt_trans hG1 (ih _ _)
              | false =>
                  have hz : st.hstack = 0 := by simpa using hsil
                  have hlt : decide (0 < st.hstack) = false := by simp [hz]
                  have hG1 := guardExt_pushpop cb hz
                    (ih (.invoke cb v) { st with hstack := st.hstack + 1, ilog := st.ilog ++ [(cb, false)] })
                  cases he : (exec f (.invoke cb v)
                      { st with hstack := st.hstack + 1, ilog := st.ilog ++ [(cb, false)] }).2 with
                  | some e =>
                      have hE : exec (f + 1) (.notifyList ((cb, false) :: rest) v) st
                          = ({ (exec f (.invoke cb v) { st with hstack := st.hstack + 1, ilog := st.ilog ++ [(cb, false)] }).1 with hstack := (exec f (.invoke cb v) { st with hstack := st.hstack + 1, ilog := st.ilog ++ [(cb, false)] }).1.hstack - 1 }, some e) := by
                        simp only [exec]
                        rw [hlt]
                        simp [he]
                      rw [hE]; exact hG1
                  | none =>
                      have hE : exec (f + 1) (.notifyList ((cb, false) :: rest) v) st
                          = exec f (.notifyList rest v) { (exec f (.invoke cb v) { st with hstack := st.hstack + 1, ilog := st.ilog ++ [(cb, false)] }).1 with hstack := (exec f (.invoke cb v) { st with hstack := st.hstack + 1, ilog := st.ilog ++ [(cb, false)] }).1.hstack - 1 } := by
                        simp only [exec]
                        rw [hlt]
                        simp [he]
                      rw [hE]; exact guardExt_trans hG1 (ih _ _)
    | invoke cb v =>
        cases cb with
        | handleOf k =>
            have hE : exec (f + 1) (.invoke (.handleOf k) v) st
                = exec f (.handle k (.event v)) st := rfl
            rw [hE]; exact ih _ st
        | user tag a thr acts =>
            cases thr with
            | true => exact guardExt_of_fields rfl rfl
            | false =>
                have hE : exec (f + 1) (.invoke (.user tag a false acts) v) st
                    = exec f (.runActs acts)
                        { st with ulog := st.ulog ++ [(tag, if a then none else some v)] } := rfl
                rw [hE]
                exact guardExt_trans (guardExt_of_fields rfl rfl) (ih _ _)
    | runActs acts =>
        cases acts with
        | nil => exact guardExt_refl st
        | cons a rest =>
            cases a with
            | throwE => exact guardExt_refl st
            | fire t w =>
                cases he : (exec f (.trigger t w) st).2 with
                | some e =>
                    have hE : exec (f + 1) (.runActs (.fire t w :: rest)) st
                        = ((exec f (.trigger t w) st).1, some e) := by
                      simp [exec, he]
                    rw [hE]; exact ih _ st
                | none =>
                    have hE : exec (f + 1) (.runActs (.fire t w :: rest)) st
                        = exec f (.runActs rest) (exec f (.trigger t w) st).1 := by
                      simp [exec, he]
                    rw [hE]; exact guardExt_trans (ih _ _) (ih _ _)
    | setT i arg =>
        by_cases hp : (st.objs i).isProp
        · cases arg with
          | ref r =>
              by_cases hpr : (st.objs r).isProp
              · cases he : (exec f (.trigSet i (.ref r)) st).2 with
                | some e =>
                    have hE : exec (f + 1) (.setT i (.ref r)) st
                        = ((exec f (.trigSet i (.ref r)) st).1, some e) := by
                      simp [exec, hp, hpr, he]
                    rw [hE]; exact ih _ st
                | none =>
                    cases hv : ((exec f (.trigSet i (.ref r)) st).1.objs r).value with
                    | none =>
                        have hE : exec (f + 1) (.setT i (.ref r)) st
                            = ((exec f (.trigSet i (.ref r)) st).1, some .attrError) := by
                          simp [exec, hp, hpr, he, hv]
                        rw [hE]; exact ih _ st
                    | some w =>
                        have hE : exec (f + 1) (.setT i (.ref r)) st
                            = exec f (.handle i (.raw w))
                                (exec f (.trigSet i (.ref r)) st).1 := by
                          simp [exec, hp, hpr, he, hv]
                        rw [hE]; exact guardExt_trans (ih _ _) (ih _ _)
              · have hE : exec (f + 1) (.setT i (.ref r)) st = (st, some .valueError) := by
                  simp [exec, hp, hpr]
                rw [hE]; exact guardExt_refl st
          | val v =>
              have hE : exec (f + 1) (.setT i (.val v)) st = exec f (.trigger i v) st := by
                simp [exec, hp]
              rw [hE]; exact ih _ st
        · have hE : exec (f + 1) (.setT i arg) st = exec f (.trigSet i arg) st := by
            simp [exec, hp]
          rw [hE]; exact ih _ st
    | trigSet i arg =>
        have hE : exec (f + 1) (.trigSet i arg) st
            = trigSetRest f (detachParent st i) i arg (st.objs i).isProp := rfl
        rw [hE]
        refine guardExt_of_fields ?_ ?_
        · rw [(trigSetRest_fields f (detachParent st i) i arg _).1,
            (detachParent_fields st i).1]
        · rw [(trigSetRest_fields f (detachParent st i) i arg _).2.1,
            (detachParent_fields st i).2.1]

/-- Error-free delivery: if running the listener loop reports no error, every
listener registered as internal is journalled as invoked, in the part of the
invocation journal appended by this run — whatever the current nesting depth
(`st.hstack`) is. -/
theorem notifyList_internal_delivered {α : Type} [DecidableEq α] :
    ∀ (fuel : Nat) (ls : List (Cb α × Bool)) (v : α) (st : St α),
      (exec fuel (.notifyList ls v) st).2 = none →
      ∀ ci ∈ ls, ci.2 = true →
        ci ∈ (exec fuel (.notifyList ls v) st).1.ilog.drop st.ilog.length := by
  intro fuel
  induction fuel with
  | zero =>
      intro ls v st hnone
      exact absurd hnone (by simp [exec])
  | succ f ih =>
      intro ls v st hnone ci hci hint
      cases ls with
      | nil => exact absurd hci (List.not_mem_nil ci)
      | cons head rest =>
          obtain ⟨cb, intl⟩ := head
          by_cases hsil : (!intl && decide (0 < st.hstack)) = true
          · cases intl with
            | true => simp at hsil
            | false =>
                have hE : exec (f + 1) (.notifyList ((cb, false) :: rest) v) st
                    = exec f (.notifyList rest v) st := by
                  simp only [exec, hsil, if_true]
                rcases List.mem_cons.1 hci with hh | hh
                · rw [hh] at hint
                  exact absurd hint (by simp)
                · rw [hE] at hnone ⊢
                  exact ih rest v st hnone ci hh hint
          · cases intl with
            | true =>
                cases he : (exec f (.invoke cb v)
                    { st with ilog := st.ilog ++ [(cb, true)] }).2 with
                | some e =>
                    have hE : exec (f + 1) (.notifyList ((cb, true) :: rest) v) st
                        = ((exec f (.invoke cb v)
                            { st with ilog := st.ilog ++ [(cb, true)] }).1, some e) := by
                      simp [exec, he]
                    rw [hE] at hnone
                    exact absurd hnone (by simp)
                | none =>
                    have hE : exec (f + 1) (.notifyList ((cb, true) :: rest) v) st
                        = exec f (.notifyList rest v)
                            (exec f (.invoke cb v)
                              { st with ilog := st.ilog ++ [(cb, true)] }).1 := by
                      simp [exec, he]
                    obtain ⟨d2, hd2, _⟩ := (execGuard f (.invoke cb v)
                      { st with ilog := st.ilog ++ [(cb, true)] }).2
                    obtain ⟨d3, hd3, _⟩ := (execGuard f (.notifyList rest v)
                      (exec f (.invoke cb v) { st with ilog := st.ilog ++ [(cb, true)] }).1).2
                    have hfin : (exec (f + 1) (.notifyList ((cb, true) :: rest) v) st).1.ilog
                        = st.ilog ++ ([(cb, true)] ++ d2 ++ d3) := by
                      rw [hE, hd3, hd2]
                      show (({ st with ilog := st.ilog ++ [(cb, true)] } : St α).ilog ++ d2) ++ d3 = _
                      simp
                    rw [hfin, List.drop_left]
                    rcases List.mem_cons.1 hci with hh | hh
                    · rw [hh]
                      simp
                    · have hrest := ih rest v
                        (exec f (.invoke cb v) { st with ilog := st.ilog ++ [(cb, true)] }).1
                        (by rw [hE] at hnone; exact hnone) ci hh hint
                      rw [hd3, hd2] at hrest
                      have : ci ∈ d3 := by
                        have h1 : ((({ st with ilog := st.ilog ++ [(cb, true)] } : St α).ilog
                            ++ d2) ++ d3).drop (({ st with ilog := st.ilog ++ [(cb, true)] } : St α).ilog ++ d2).length = d3 :=
                          List.drop_left _ _
                        rw [h1] at hrest
                        exact hrest
                      simp only [List.append_assoc, List.mem_append]
                      right; right; exact this
            | false =>
                rcases List.mem_cons.1 hci with hh | hh
                · rw [hh] at hint
                  exact absurd hint (by simp)
                · have hz : st.hstack = 0 := by simpa using hsil
                  have hlt : decide (0 < st.hstack) = false := by simp [hz]
                  cases he : (exec f (.invoke cb v)
                      { st with hstack := st.hstack + 1, ilog := st.ilog ++ [(cb, false)] }).2 with
                  | some e =>
                      have hE : exec (f + 1) (.notifyList ((cb, false) :: rest) v) st
                          = ({ (exec f (.invoke cb v) { st with hstack := st.hstack + 1, ilog := st.ilog ++ [(cb, false)] }).1 with hstack := (exec f (.invoke cb v) { st with hstack := st.hstack + 1, ilog := st.ilog ++ [(cb, false)] }).1.hstack - 1 }, some e) := by
                        simp only [exec]
                        rw [hlt]
                        simp [he]
                      rw [hE] at hnone
                      exact absurd hnone (by simp)
                  | none =>
                      have hE : exec (f + 1) (.notifyList ((cb, false) :: rest) v) st
                          = exec f (.notifyList rest v) { (exec f (.invoke cb v) { st with hstack := st.hstack + 1, ilog := st.ilog ++ [(cb, false)] }).1 with hstack := (exec f (.invoke cb v) { st with hstack := st.hstack + 1, ilog := st.ilog ++ [(cb, false)] }).1.hstack - 1 } := by
                        simp only [exec]
                        rw [hlt]
                        simp [he]
                      obtain ⟨d2, hd2, _⟩ := (execGuard f (.invoke cb v)
                        { st with hstack := st.hstack + 1, ilog := st.ilog ++ [(cb, false)] }).2
                      obtain ⟨d3, hd3, _⟩ := (execGuard f (.notifyList rest v)
                        { (exec f (.invoke cb v) { st with hstack := st.hstack + 1, ilog := st.ilog ++ [(cb, false)] }).1 with hstack := (exec f (.invoke cb v) { st with hstack := st.hstack + 1, ilog := st.ilog ++ [(cb, false)] }).1.hstack - 1 }).2
                      have hrest := ih rest v
                        { (exec f (.invoke cb v) { st with hstack := st.hstack + 1, ilog := st.ilog ++ [(cb, false)] }).1 with hstack := (exec f (.invoke cb v) { st with hstack := st.hstack + 1, ilog := st.ilog ++ [(cb, false)] }).1.hstack - 1 }
                        (by rw [hE] at hnone; exact hnone) ci hh hint
                      have hfin : (exec (f + 1) (.notifyList ((cb, false) :: rest) v) st).1.ilog
                          = st.ilog ++ ([(cb, false)] ++ d2 ++ d3) := by
                        rw [hE, hd3]
                        show (exec f (.invoke cb v) { st with hstack := st.hstack + 1, ilog := st.ilog ++ [(cb, false)] }).1.ilog ++ d3 = _
                        rw [hd2]
                        show (({ st with hstack := st.hstack + 1, ilog := st.ilog ++ [(cb, false)] } : St α).ilog ++ d2) ++ d3 = _
                        simp
                      rw [hfin, List.drop_left]
                      have : ci ∈ d3 := by
                        rw [hd3] at hrest
                        have h1 : ((exec f (.invoke cb v) { st with hstack := st.hstack + 1, ilog := st.ilog ++ [(cb, false)] }).1.ilog ++ d3).drop (exec f (.invoke cb v) { st with hstack := st.hstack + 1, ilog := st.ilog ++ [(cb, false)] }).1.ilog.length = d3 :=
                          List.drop_left _ _
                        rw [h1] at hrest
                        exact hrest
                      simp only [List.append_assoc, List.mem_append]
                      right; right; exact this

/-- C3: the re-entrancy guard of `notify`/`enter_handler`.  (1) The handler
stack is restored after any notification, on every exit path including
exceptions.  (2) While an outermost non-internal handler is in progress (the
global handler stack is non-empty), a notification delivers to no
non-internal listener: every invocation it journals carries the
`internal = true` registration flag.  (3) Listeners registered as internal
are always invoked regardless of nesting depth: an error-free notification
journals an invocation for every internal listener of the notified
trigger. -/
theorem c3_reentrancy_guard {α : Type} [DecidableEq α]
    (fuel : Nat) (st : St α) (i : Nat) (v : α) :
    (exec fuel (.notify i v) st).1.hstack = st.hstack ∧
    (0 < st.hstack →
      ∀ e ∈ (exec fuel (.notify i v) st).1.ilog.drop st.ilog.length, e.2 = true) ∧
    ((exec fuel (.notify i v) st).2 = none →
      ∀ ci ∈ (st.objs i).listeners, ci.2 = true →
        ci ∈ (exec fuel (.notify i v) st).1.ilog.drop st.ilog.length) := by
  obtain ⟨hh, d, hd, hcond⟩ := execGuard fuel (.notify i v) st
  refine ⟨hh, ?_, ?_⟩
  · intro hpos e he
    rw [hd, List.drop_left] at he
    exact hcond hpos e he
  · intro hnone ci hci hint
    cases fuel with
    | zero => exact absurd hnone (by simp [exec])
    | succ f =>
        have hE : exec (f + 1) (.notify i v) st
            = exec f (.notifyList (st.objs i).listeners v) st := rfl
        rw [hE] at hnone ⊢
        exact notifyList_internal_delivered f (st.objs i).listeners v st hnone ci hci hint

/-- C3 witness: on `c3Nested` (an outermost handler already in progress,
`hstack = 1`), notifying trigger 1 — which has a non-internal listener
(tag 20) and an internal one (tag 30) — keeps the stack at 1, and the
internal listener is journalled as invoked. -/
theorem c3_witness :
    0 < c3Nested.hstack ∧
    (exec 9 (.notify 1 (5 : Int)) c3Nested).1.hstack = c3Nested.hstack ∧
    ((.user 30 false false [], true)
      ∈ (exec 9 (.notify 1 (5 : Int)) c3Nested).1.ilog.drop c3Nested.ilog.length) :=
  ⟨by decide,
   (c3_reentrancy_guard 9 c3Nested 1 5).1,
   (c3_reentrancy_guard 9 c3Nested 1 5).2.2 (by decide)
     (.user 30 false false [], true) (by decide) rfl⟩

/-- C8 witness: two plain triggers with `0.parent == 1` (the state `c8St`),
then `t0.set(5)`. -/
theorem c8_witness :
    ((c8St.objs 0).isProp = false ∧ (c8St.objs 0).parent = some 1) ∧
    (exec 2 (.setT 0 (.val (5 : Int))) c8St).2 = some .valueError ∧
    ((exec 2 (.setT 0 (.val (5 : Int))) c8St).1.objs 0).parent = none ∧
    ((exec 2 (.setT 0 (.val (5 : Int))) c8St).1.objs 1).listeners
      = (c8St.objs 1).listeners.filter (fun ci => decide (ci.1 ≠ .handleOf 0)) :=
  ⟨⟨by decide, by decide⟩,
    c8_set_value_detaches_then_raises 0 c8St 0 1 5 (by decide) (by decide)⟩

/-! ### The Property value invariant (C4, C6) -/

theorem lastH_append_single {α : Type} (l : List (Nat × α)) (i : Nat) (v : α) (j : Nat) :
    lastH (l ++ [(i, v)]) j = if i = j then some v else lastH l j := by
  simp [lastH, List.foldl_append]

/-- `ValueInv` only looks at the `value` fields and the `handle` journal. -/
theorem valueInv_of_fields {α : Type} {st st' : St α}
    (hv : ∀ j, (st'.objs j).value = (st.objs j).value)
    (hl : st'.hlog = st.hlog) (h : ValueInv st) : ValueInv st' := by
  intro i v hlast
  rw [hl] at hlast
  rw [hv i]
  exact h i v hlast

/-- The commit step of `Property.handle` (store the value, journal the call)
preserves the value invariant. -/
theorem valueInv_commit {α : Type} (st : St α) (i : Nat) (v : α) (h : ValueInv st) :
    ValueInv { updObj st i { st.objs i with value := some v } with
      hlog := st.hlog ++ [(i, v)] } := by
  intro j w hlast
  have hlast2 : lastH (st.hlog ++ [(i, v)]) j = some w := hlast
  rw [lastH_append_single] at hlast2
  show ((updObj st i { st.objs i with value := some v }).objs j).value = some w
  rw [updObj_objs]
  by_cases hij : i = j
  · rw [if_pos hij] at hlast2
    have hw : v = w := by injection hlast2
    rw [if_pos hij.symm, ← hw]
  · rw [if_neg hij] at hlast2
    rw [if_neg (fun hji => hij hji.symm)]
    exact h j w hlast2

/-- Master lemma for the value invariant: every run of the interpreter
preserves `value = argument of the most recent Property.handle commit`. -/
theorem execValueInv {α : Type} [DecidableEq α] :
    ∀ (fuel : Nat) (t : Task α) (st : St α), ValueInv st → ValueInv (exec fuel t st).1 := by
  intro fuel
  induction fuel with
  | zero => intro t st h; exact h
  | succ f ih =>
    intro t st h
    cases t with
    | trigger i v =>
        cases hp : (st.objs i).parent with
        | some p =>
            have hE : exec (f + 1) (.trigger i v) st = exec f (.trigger p v) st := by
              simp [exec, hp]
            rw [hE]; exact ih _ st h
        | none =>
            have hE : exec (f + 1) (.trigger i v) st = exec f (.handle i (.raw v)) st := by
              simp [exec, hp]
            rw [hE]; exact ih _ st h
    | handle i arg =>
        by_cases hp : (st.objs i).isProp
        · have hE : exec (f + 1) (.handle i arg) st
              = exec f (.notify i arg.unwrap)
                  { updObj st i { st.objs i with value := some arg.unwrap } with
                    hlog := st.hlog ++ [(i, arg.unwrap)] } := by
            simp [exec, hp]
          rw [hE]
          exact ih _ _ (valueInv_commit st i arg.unwrap h)
        · have hE : exec (f + 1) (.handle i arg) st = exec f (.notify i arg.unwrap) st := by
            simp [exec, hp]
          rw [hE]; exact ih _ st h
    | notify i v =>
        have hE : exec (f + 1) (.notify i v) st
            = exec f (.notifyList (st.objs i).listeners v) st := rfl
        rw [hE]; exact ih _ st h
    | notifyList ls v =>
        cases ls with
        | nil => exact h
        | cons head rest =>
            obtain ⟨cb, intl⟩ := head
            by_cases hsil : (!intl && decide (0 < st.hstack)) = true
            · have hE : exec (f + 1) (.notifyList ((cb, intl) :: rest) v) st
                  = exec f (.notifyList rest v) st := by
                simp only [exec, hsil, if_true]
              rw [hE]; exact ih _ st h
            · cases intl with
              | true =>
                  have hIn : ValueInv ({ st with ilog := st.ilog ++ [(cb, true)] }) :=
                    valueInv_of_fields (fun _ => rfl) rfl h
                  have hMid := ih (.invoke cb v) { st with ilog := st.ilog ++ [(cb, true)] } hIn
                  cases he : (exec f (.invoke cb v)
                      { st with ilog := st.ilog ++ [(cb, true)] }).2 with
                  | some e =>
                      have hE : exec (f + 1) (.notifyList ((cb, true) :: rest) v) st
                          = ((exec f (.invoke cb v)
                              { st with ilog := st.ilog ++ [(cb, true)] }).1, some e) := by
                        simp [exec, he]
                      rw [hE]; exact hMid
                  | none =>
                      have hE : exec (f + 1) (.notifyList ((cb, true) :: rest) v) st
                          = exec f (.notifyList rest v)
                              (exec f (.invoke cb v)
                                { st with ilog := st.ilog ++ [(cb, true)] }).1 := by
                        simp [exec, he]
                      rw [hE]; exact ih _ _ hMid
              | false =>
                  have hz : st.hstack = 0 := by simpa using hsil
                  have hlt : decide (0 < st.hstack) = false := by simp [hz]
                  have hIn : ValueInv ({ st with hstack := st.hstack + 1, ilog := st.ilog ++ [(cb, false)] }) :=
                    valueInv_of_fields (fun _ => rfl) rfl h
                  have hMid := ih (.invoke cb v)
                    { st with hstack := st.hstack + 1, ilog := st.ilog ++ [(cb, false)] } hIn
                  have hOut : ValueInv ({ (exec f (.invoke cb v) { st with hstack := st.hstack + 1, ilog := st.ilog ++ [(cb, false)] }).1 with hstack := (exec f (.invoke cb v) { st with hstack := st.hstack + 1, ilog := st.ilog ++ [(cb, false)] }).1.hstack - 1 }) :=
                    valueInv_of_fields (fun _ => rfl) rfl hMid
                  cases he : (exec f (.invoke cb v)
                      { st with hstack := st.hstack + 1, ilog := st.ilog ++ [(cb, false)] }).2 with
                  | some e =>
                      have hE : exec (f + 1) (.notifyList ((cb, false) :: rest) v) st
                          = ({ (exec f (.invoke cb v) { st with hstack := st.hstack + 1, ilog := st.ilog ++ [(cb, false)] }).1 with hstack := (exec f (.invoke cb v) { st with hstack := st.hstack + 1, ilog := st.ilog ++ [(cb, false)] }).1.hstack - 1 }, some e) := by
                        simp only [exec]
                        rw [hlt]
                        simp [he]
                      rw [hE]; exact hOut
                  | none =>
                      have hE : exec (f + 1) (.notifyList ((cb, false) :: rest) v) st
                          = exec f (.notifyList rest v) { (exec f (.invoke cb v) { st with hstack := st.hstack + 1, ilog := st.ilog ++ [(cb, false)] }).1 with hstack := (exec f (.invoke cb v) { st with hstack := st.hstack + 1, ilog := st.ilog ++ [(cb, false)] }).1.hstack - 1 } := by
                        simp only [exec]
                        rw [hlt]
                        simp [he]
                      rw [hE]; exact ih _ _ hOut
    | invoke cb v =>
        cases cb with
        | handleOf k =>
            have hE : exec (f + 1) (.invoke (.handleOf k) v) st
                = exec f (.handle k (.event v)) st := rfl
            rw [hE]; exact ih _ st h
        | user tag a thr acts =>
            have hU : ValueInv ({ st with
                ulog := st.ulog ++ [(tag, if a then none else some v)] }) :=
              valueInv_of_fields (fun _ => rfl) rfl h
            cases thr with
            | true => exact hU
            | false =>
                have hE : exec (f + 1) (.invoke (.user tag a false acts) v) st
                    = exec f (.runActs acts)
                        { st with ulog := st.ulog ++ [(tag, if a then none else some v)] } := rfl
                rw [hE]; exact ih _ _ hU
    | runActs acts =>
        cases acts with
        | nil => exact h
        | cons a rest =>
            cases a with
            | throwE => exact h
            | fire t w =>
                cases he : (exec f (.trigger t w) st).2 with
                | some e =>
                    have hE : exec (f + 1) (.runActs (.fire t w :: rest)) st
                        = ((exec f (.trigger t w) st).1, some e) := by
                      simp [exec, he]
                    rw [hE]; exact ih _ st h
                | none =>
                    have hE : exec (f + 1) (.runActs (.fire t w :: rest)) st
                        = exec f (.runActs rest) (exec f (.trigger t w) st).1 := by
                      simp [exec, he]
                    rw [hE]; exact ih _ _ (ih _ st h)
    | setT i arg =>
        by_cases hp : (st.objs i).isProp
        · cases arg with
          | ref r =>
              by_cases hpr : (st.objs r).isProp
              · cases he : (exec f (.trigSet i (.ref r)) st).2 with
                | some e =>
                    have hE : exec (f + 1) (.setT i (.ref r)) st
                        = ((exec f (.trigSet i (.ref r)) st).1, some e) := by
                      simp [exec, hp, hpr, he]
                    rw [hE]; exact ih _ st h
                | none =>
                    cases hv : ((exec f (.trigSet i (.ref r)) st).1.objs r).value with
                    | none =>
                        have hE : exec (f + 1) (.setT i (.ref r)) st
                            = ((exec f (.trigSet i (.ref r)) st).1, some .attrError) := by
                          simp [exec, hp, hpr, he, hv]
                        rw [hE]; exact ih _ st h
                    | some w =>
                        have hE : exec (f + 1) (.setT i (.ref r)) st
                            = exec f (.handle i (.raw w))
                                (exec f (.trigSet i (.ref r)) st).1 := by
                          simp [exec, hp, hpr, he, hv]
                        rw [hE]; exact ih _ _ (ih _ st h)
              · have hE : exec (f + 1) (.setT i (.ref r)) st = (st, some .valueError) := by
                  simp [exec, hp, hpr]
                rw [hE]; exact h
          | val v =>
              have hE : exec (f + 1) (.setT i (.val v)) st = exec f (.trigger i v) st := by
                simp [exec, hp]
              rw [hE]; exact ih _ st h
        · have hE : exec (f + 1) (.setT i arg) st = exec f (.trigSet i arg) st := by
            simp [exec, hp]
          rw [hE]; exact ih _ st h
    | trigSet i arg =>
        have hE : exec (f + 1) (.trigSet i arg) st
            = trigSetRest f (detachParent st i) i arg (st.objs i).isProp := rfl
        rw [hE]
        refine valueInv_of_fields (fun j => ?_) ?_ h
        · rw [(trigSetRest_fields f (detachParent st i) i arg _).2.2.2.2.2.1 j,
            (detachParent_fields st i).2.2.2.2.2.1 j]
        · rw [(trigSetRest_fields f (detachParent st i) i arg _).2.2.2.1,
            (detachParent_fields st i).2.2.2.1]

/-- C4: value round-trip and value invariant.  (1) For every non-Trigger
value `v` and initial value, `Property(initial).set(v)` leaves the property's
`value` attribute equal to `v` (the run is error-free).  (2) More generally,
every interpreter run preserves the invariant that a Property's `value`
equals the (Event-unwrapped) argument of the most recent `Property.handle`
commit recorded in the journal. -/
theorem c4_value_roundtrip_and_invariant :
    (∀ (α : Type) [DecidableEq α] (init v : α),
      ((exec 9 (.setT (newProperty 9 (emptySt α) (.val init)).2 (.val v))
          (newProperty 9 (emptySt α) (.val init)).1.1).1.objs
            (newProperty 9 (emptySt α) (.val init)).2).value = some v ∧
      (exec 9 (.setT (newProperty 9 (emptySt α) (.val init)).2 (.val v))
          (newProperty 9 (emptySt α) (.val init)).1.1).2 = none) ∧
    (∀ (α : Type) [DecidableEq α] (fuel : Nat) (t : Task α) (st : St α),
      ValueInv st → ValueInv (exec fuel t st).1) := by
  constructor
  · intro α _ init v
    exact ⟨rfl, rfl⟩
  · intro α _ fuel t st h
    exact execValueInv fuel t st h

/-- C4 witness: the invariant-preservation part applied to the concrete
state `c4St` (`p = Property(1)`) and the run `p.set(3)`; the invariant holds
of `c4St` and is preserved. -/
theorem c4_witness :
    ValueInv c4St ∧ ValueInv (exec 9 (.setT 0 (.val (3 : Int))) c4St).1 := by
  have h : ValueInv c4St := by
    intro i v hlast
    have he : lastH c4St.hlog i = if 0 = i then some 1 else none := rfl
    rw [he] at hlast
    by_cases h0 : 0 = i
    · rw [if_pos h0] at hlast
      have hv : (1 : Int) = v := by injection hlast
      subst h0
      rw [← hv]
      rfl
    · rw [if_neg h0] at hlast
      exact absurd hlast (by simp)
  exact ⟨h, c4_value_roundtrip_and_invariant.2 Int 9 (.setT 0 (.val 3)) c4St h⟩

/-- Invoking a user callback with an empty action body journals it and then
either raises (if it is a throwing callback) or returns, leaving everything
else unchanged. -/
theorem invoke_pure_user {α : Type} [DecidableEq α] (g : Nat) (tag : Nat) (a thr : Bool)
    (v : α) (st : St α) (hg : 2 ≤ g) :
    exec g (.invoke (.user tag a thr []) v) st
      = ({ st with ulog := st.ulog ++ [(tag, if a then none else some v)] },
         if thr then some .userExn else none) := by
  obtain ⟨g2, rfl⟩ : ∃ g2, g = g2 + 1 + 1 := ⟨g - 2, by omega⟩
  cases thr
  · simp [exec]
  · simp [exec]

/-- Running the listener loop over listeners that are all pure user
callbacks (empty action bodies), from an empty handler stack: the heap is
untouched, the stack ends empty, and the run raises exactly when some
listener is a throwing one (the only possible error being the listener's
exception). -/
theorem notifyList_pure_users {α : Type} [DecidableEq α] :
    ∀ (ls : List (Cb α × Bool)) (fuel : Nat) (st : St α) (v : α),
      ls.all pureUserL = true → st.hstack = 0 → ls.length + 2 ≤ fuel →
      (exec fuel (.notifyList ls v) st).1.objs = st.objs ∧
      (exec fuel (.notifyList ls v) st).1.hstack = 0 ∧
      ((exec fuel (.notifyList ls v) st).2 = some .userExn ↔ ls.any throwsL = true) ∧
      ((exec fuel (.notifyList ls v) st).2 = none ∨
        (exec fuel (.notifyList ls v) st).2 = some .userExn) := by
  intro ls
  induction ls with
  | nil =>
      intro fuel st v _ hz hf
      obtain ⟨g, rfl⟩ : ∃ g, fuel = g + 1 := ⟨fuel - 1, by omega⟩
      have hE : exec (g + 1) (.notifyList ([] : List (Cb α × Bool)) v) st = (st, none) := rfl
      rw [hE]
      exact ⟨rfl, hz, by simp, Or.inl rfl⟩
  | cons head rest ih =>
      intro fuel st v hall hz hf
      obtain ⟨cb, intl⟩ := head
      obtain ⟨g, rfl⟩ : ∃ g, fuel = g + 1 := ⟨fuel - 1, by omega⟩
      have hg : rest.length + 2 ≤ g := by
        have := hf
        simp only [List.length_cons] at this
        omega
      have hg2 : 2 ≤ g := by omega
      rw [List.all_cons, Bool.and_eq_true] at hall
      obtain ⟨hall1, hall2⟩ := hall
      have hlt : decide (0 < st.hstack) = false := by simp [hz]
      cases cb with
      | handleOf k => simp [pureUserL] at hall1
      | user tag a thr acts =>
          cases acts with
          | cons a0 acts0 => simp [pureUserL] at hall1
          | nil =>
              cases intl with
              | true =>
                  have hinv := invoke_pure_user g tag a thr v
                    { st with ilog := st.ilog ++ [(.user tag a thr [], true)] } hg2
                  cases thr with
                  | true =>
                      have hE : exec (g + 1)
                          (.notifyList ((.user tag a true [], true) :: rest) v) st
                          = ({ st with
                                ulog := st.ulog ++ [(tag, if a then none else some v)],
                                ilog := st.ilog ++ [(.user tag a true [], true)] },
                             some .userExn) := by
                        simp [exec, hinv, hlt]
                      rw [hE]
                      exact ⟨rfl, hz, by simp [throwsL], Or.inr rfl⟩
                  | false =>
                      have hE : exec (g + 1)
                          (.notifyList ((.user tag a false [], true) :: rest) v) st
                          = exec g (.notifyList rest v)
                              { st with
                                ulog := st.ulog ++ [(tag, if a then none else some v)],
                                ilog := st.ilog ++ [(.user tag a false [], true)] } := by
                        simp [exec, hinv, hlt]
                      rw [hE]
                      obtain ⟨h1, h2, h3, h4⟩ := ih g
                        { st with
                          ulog := st.ulog ++ [(tag, if a then none else some v)],
                          ilog := st.ilog ++ [(.user tag a false [], true)] }
                        v hall2 hz hg
                      exact ⟨h1, h2, by rw [h3]; simp [throwsL], h4⟩
              | false =>
                  have hinv := invoke_pure_user g tag a thr v
                    { st with hstack := st.hstack + 1, ilog := st.ilog ++ [(.user tag a thr [], false)] } hg2
                  cases thr with
                  | true =>
                      have hE : exec (g + 1)
                          (.notifyList ((.user tag a true [], false) :: rest) v) st
                          = ({ st with
                                ulog := st.ulog ++ [(tag, if a then none else some v)],
                                ilog := st.ilog ++ [(.user tag a true [], false)] },
                             some .userExn) := by
                        simp [exec, hinv, hlt]
                      rw [hE]
                      exact ⟨rfl, hz, by simp [throwsL], Or.inr rfl⟩
                  | false =>
                      have hE : exec (g + 1)
                          (.notifyList ((.user tag a false [], false) :: rest) v) st
                          = exec g (.notifyList rest v)
                              { st with
                                ulog := st.ulog ++ [(tag, if a then none else some v)],
                                ilog := st.ilog ++ [(.user tag a false [], false)] } := by
                        simp [exec, hinv, hlt]
                      rw [hE]
                      obtain ⟨h1, h2, h3, h4⟩ := ih g
                        { st with
                          ulog := st.ulog ++ [(tag, if a then none else some v)],
                          ilog := st.ilog ++ [(.user tag a false [], false)] }
                        v hall2 hz hg
                      exact ⟨h1, h2, by rw [h3]; simp [throwsL], h4⟩

/-- C6: listener faults do not roll back state.  For a Property `p` whose
listeners are user callbacks (possibly raising, with no further actions),
run from an empty handler stack, `p.handle(v)` always leaves `p.value` equal
to the (Event-unwrapped) `v` — the store happens before `notify` — and the
run raises (the exception propagating out of `notify` and `handle`
uncaught) exactly when one of the listeners raises. -/
theorem c6_listener_fault_no_rollback {α : Type} [DecidableEq α]
    (f : Nat) (st : St α) (p : Nat) (arg : HArg α)
    (hp : (st.objs p).isProp = true) (hz : st.hstack = 0)
    (hpure : (st.objs p).listeners.all pureUserL = true)
    (hf : (st.objs p).listeners.length + 2 ≤ f) :
    ((exec (f + 2) (.handle p arg) st).1.objs p).value = some arg.unwrap ∧
    ((exec (f + 2) (.handle p arg) st).2 = some .userExn ↔
      (st.objs p).listeners.any throwsL = true) := by
  have hE : exec (f + 2) (.handle p arg) st
      = exec f (.notifyList ((st.objs p).listeners) arg.unwrap)
          { updObj st p { st.objs p with value := some arg.unwrap } with
            hlog := st.hlog ++ [(p, arg.unwrap)] } := by
    show exec (f + 1 + 1) (.handle p arg) st = _
    simp [exec, hp, updObj_objs]
  rw [hE]
  obtain ⟨h1, _, h3, _⟩ := notifyList_pure_users (st.objs p).listeners f
    { updObj st p { st.objs p with value := some arg.unwrap } with
      hlog := st.hlog ++ [(p, arg.unwrap)] } arg.unwrap hpure hz hf
  constructor
  · rw [h1]
    show ((updObj st p { st.objs p with value := some arg.unwrap }).objs p).value = _
    simp [updObj_objs]
  · exact h3

/-- C6 witness: `p = Property(0)` with a well-behaved listener (tag 1) and a
raising listener (tag 2); `p.handle(42)` raises the listener's exception but
`p.value` is 42 afterwards. -/
theorem c6_witness :
    ((c6St.objs 0).isProp = true ∧ c6St.hstack = 0 ∧
      (c6St.objs 0).listeners.all pureUserL = true ∧
      (c6St.objs 0).listeners.length + 2 ≤ 4) ∧
    ((exec 6 (.handle 0 (.raw (42 : Int))) c6St).1.objs 0).value = some 42 ∧
    ((exec 6 (.handle 0 (.raw (42 : Int))) c6St).2 = some .userExn ↔
      (c6St.objs 0).listeners.any throwsL = true) :=
  ⟨⟨by decide, by decide, by decide, by decide⟩,
    c6_listener_fault_no_rollback 4 c6St 0 (.raw 42)
      (by decide) (by decide) (by decide) (by decide)⟩

/-! ### Property construction with a Property argument (C9) -/

/-- The fresh object allocated by `alloc` is the blank object. -/
theorem alloc_objs_self {α : Type} (st : St α) (b : Bool) :
    ((alloc st b).1.objs st.next) = blankObj b := by
  simp [alloc]

/-- `alloc` leaves every previously existing object unchanged. -/
theorem alloc_objs_other {α : Type} (st : St α) (b : Bool) (j : Nat) (h : j ≠ st.next) :
    ((alloc st b).1.objs j) = st.objs j := by
  simp [alloc, h]

/-- C9: for a Property `q` (holding value `w`, with an ancestor chain that
terminates without reaching the fresh object), constructing `p = Property(q)`
allocates `p = st.next`, completes without error, leaves `p.parent == q`,
appends `p.handle` as an internal listener on `q`, and sets `p.value` to
`q.value` — the constructor routes its initial value through the same `set`
path as later assignments. -/
theorem c9_property_parent_construction {α : Type} [DecidableEq α]
    (f : Nat) (st : St α) (q : Nat) (w : α)
    (hf : 2 ≤ f)
    (hq : q < st.next)
    (hqp : (st.objs q).isProp = true)
    (hqv : (st.objs q).value = some w)
    (hanc : ancWalk f (alloc st true).1 st.next ((st.objs q).parent) = some false) :
    (newProperty (f + 2) st (.ref q)).2 = st.next ∧
    (newProperty (f + 2) st (.ref q)).1.2 = none ∧
    ((newProperty (f + 2) st (.ref q)).1.1.objs st.next).parent = some q ∧
    ((newProperty (f + 2) st (.ref q)).1.1.objs q).listeners
      = (st.objs q).listeners ++ [(.handleOf st.next, true)] ∧
    ((newProperty (f + 2) st (.ref q)).1.1.objs st.next).value = some w := by
  have hqne : q ≠ st.next := Nat.ne_of_lt hq
  have hA_p : ((alloc st true).1.objs st.next) = blankObj true := alloc_objs_self st true
  have hA_q : ((alloc st true).1.objs q) = st.objs q := alloc_objs_other st true q hqne
  have hdet : detachParent (alloc st true).1 st.next = (alloc st true).1 := by
    simp [detachParent, hA_p, blankObj]
  have hTS2 : trigSetRest f (detachParent (alloc st true).1 st.next) st.next (.ref q) true
      = ((onObj (setParent (alloc st true).1 st.next (some q)) q (.handleOf st.next) true), none) := by
    rw [hdet]
    simp [trigSetRest, hA_q, hanc]
  have hATTq : ((onObj (setParent (alloc st true).1 st.next (some q)) q (.handleOf st.next) true).objs q).value = some w := by
    rw [onObj_value, setParent_value, hA_q, hqv]
  have hPp : ((onObj (setParent (alloc st true).1 st.next (some q)) q (.handleOf st.next) true).objs st.next) = { blankObj true with parent := some q } := by
    have h1 : ((onObj (setParent (alloc st true).1 st.next (some q)) q (.handleOf st.next) true).objs st.next)
        = ((setParent (alloc st true).1 st.next (some q)).objs st.next) := by
      simp [onObj, updObj_objs, Ne.symm hqne]
    rw [h1]
    simp [setParent, updObj_objs, hA_p]
  have hEset : exec (f + 2) (.setT st.next (.ref q)) (alloc st true).1
      = exec (f + 1) (.handle st.next (.raw w)) (onObj (setParent (alloc st true).1 st.next (some q)) q (.handleOf st.next) true) := by
    show exec (f + 1 + 1) (.setT st.next (.ref q)) (alloc st true).1 = _
    simp [exec, hA_p, blankObj, hA_q, hqp, hTS2, hATTq, hPp]
  obtain ⟨f2, rfl⟩ : ∃ f2, f = f2 + 2 := ⟨f - 2, by omega⟩
  have hAll : exec (f2 + 2 + 2) (.setT st.next (.ref q)) (alloc st true).1
      = ({ updObj (onObj (setParent (alloc st true).1 st.next (some q)) q (.handleOf st.next) true) st.next ⟨true, [], some q, some w⟩ with hlog := (onObj (setParent (alloc st true).1 st.next (some q)) q (.handleOf st.next) true).hlog ++ [(st.next, w)] }, none) := by
    rw [hEset]
    simp [exec, hPp, blankObj, updObj_objs, HArg.unwrap]
  refine ⟨rfl, ?_, ?_, ?_, ?_⟩
  · show (exec (f2 + 2 + 2) (.setT st.next (.ref q)) (alloc st true).1).2 = none
    rw [hAll]
  · show ((exec (f2 + 2 + 2) (.setT st.next (.ref q)) (alloc st true).1).1.objs st.next).parent = some q
    rw [hAll]
    show ((updObj (onObj (setParent (alloc st true).1 st.next (some q)) q (.handleOf st.next) true) st.next ⟨true, [], some q, some w⟩).objs st.next).parent = some q
    rw [updObj_objs, if_pos rfl]
  · show ((exec (f2 + 2 + 2) (.setT st.next (.ref q)) (alloc st true).1).1.objs q).listeners
      = (st.objs q).listeners ++ [(.handleOf st.next, true)]
    rw [hAll]
    show ((updObj (onObj (setParent (alloc st true).1 st.next (some q)) q (.handleOf st.next) true) st.next ⟨true, [], some q, some w⟩).objs q).listeners = _
    rw [updObj_objs, if_neg hqne]
    have h4 : ((onObj (setParent (alloc st true).1 st.next (some q)) q (.handleOf st.next) true).objs q).listeners
        = ((setParent (alloc st true).1 st.next (some q)).objs q).listeners ++ [(.handleOf st.next, true)] := by
      simp [onObj, updObj_objs]
    rw [h4, setParent_listeners, hA_q]
  · show ((exec (f2 + 2 + 2) (.setT st.next (.ref q)) (alloc st true).1).1.objs st.next).value = some w
    rw [hAll]
    show ((updObj (onObj (setParent (alloc st true).1 st.next (some q)) q (.handleOf st.next) true) st.next ⟨true, [], some q, some w⟩).objs st.next).value = some w
    rw [updObj_objs, if_pos rfl]

/-- C9 witness: `q = Property(5)` (id 0) in `c9Base`, then `Property(q)`. -/
theorem c9_witness :
    (2 ≤ 2 ∧ 0 < c9Base.next ∧ (c9Base.objs 0).isProp = true ∧
      (c9Base.objs 0).value = some 5 ∧
      ancWalk 2 (alloc c9Base true).1 c9Base.next ((c9Base.objs 0).parent) = some false) ∧
    (newProperty 4 c9Base (.ref 0)).2 = c9Base.next ∧
    (newProperty 4 c9Base (.ref 0)).1.2 = none ∧
    ((newProperty 4 c9Base (.ref 0)).1.1.objs c9Base.next).parent = some 0 ∧
    ((newProperty 4 c9Base (.ref 0)).1.1.objs 0).listeners
      = (c9Base.objs 0).listeners ++ [(.handleOf c9Base.next, true)] ∧
    ((newProperty 4 c9Base (.ref 0)).1.1.objs c9Base.next).value = some 5 :=
  ⟨⟨by decide, by decide, by decide, by decide, by decide⟩,
    c9_property_parent_construction 2 c9Base 0 5
      (by decide) (by decide) (by decide) (by decide) (by decide)⟩


/-! ### The `jsoncopy` cycle guard and its `==`-based membership test (C10) -/

/-- A duplicate-free list of naturals below `n` has length at most `n`. -/
theorem nodup_bounded_length_le (stack : List Nat) (n : Nat)
    (hnd : stack.Nodup) (hb : ∀ r ∈ stack, r < n) : stack.length ≤ n := by
  have h1 : stack.toFinset ⊆ Finset.range n := by
    intro x hx
    rw [List.mem_toFinset] at hx
    exact Finset.mem_range.2 (hb x hx)
  have h2 := Finset.card_le_card h1
  rw [Finset.card_range] at h2
  rw [← List.toFinset_card_of_nodup hnd]
  exact h2

/-- With no budget left, any comparison is already a `RecursionError`. -/
theorem pyEqV_zero (h : PyHeap) (v w : PyVal) : pyEqV h 0 v w = none := by
  simp [pyEqV.eq_def]

/-- The identity fast path: a value compares equal to itself without any
recursion, at every positive budget. -/
theorem pyEqV_self (h : PyHeap) (fuel : Nat) (v : PyVal) :
    pyEqV h (fuel + 1) v v = some true := by
  simp [pyEqV.eq_def]

/-- Reduction of `==` on two non-identical references. -/
theorem pyEqV_ref (h : PyHeap) (k : Nat) (r q : Nat)
    (hne : (PyVal.ref r) ≠ .ref q) :
    pyEqV h (k + 1) (.ref r) (.ref q) =
      match h.objs r, h.objs q with
      | .listO t es, .listO t2 fs =>
          if t != t2 then some false
          else if !t && es.length != fs.length then some false
          else pyEqSeq h k es fs
      | .dictO kvs, .dictO kvs2 =>
          if kvs.length != kvs2.length then some false
          else pyEqEntries h k kvs kvs2
      | _, _ => some false := by
  simp [pyEqV.eq_def, hne]

/-- One step of the element loop. -/
theorem pyEqSeq_cons (h : PyHeap) (fuel : Nat) (e f : PyVal)
    (es fs : List PyVal) :
    pyEqSeq h fuel (e :: es) (f :: fs) =
      match pyEqV h fuel e f with
      | none => none
      | some false => some false
      | some true => pyEqSeq h fuel es fs := by
  conv_lhs => rw [pyEqSeq.eq_def]

/-- Both sequences exhausted: equal. -/
theorem pyEqSeq_nil (h : PyHeap) (fuel : Nat) : pyEqSeq h fuel [] [] = some true := by
  simp [pyEqSeq.eq_def]

/-- The left sequence exhausted first: unequal by length. -/
theorem pyEqSeq_nil_cons (h : PyHeap) (fuel : Nat) (f : PyVal) (fs : List PyVal) :
    pyEqSeq h fuel [] (f :: fs) = some false := by
  simp [pyEqSeq.eq_def]

/-- The right sequence exhausted first: unequal by length. -/
theorem pyEqSeq_cons_nil (h : PyHeap) (fuel : Nat) (e : PyVal) (es : List PyVal) :
    pyEqSeq h fuel (e :: es) [] = some false := by
  simp [pyEqSeq.eq_def]

/-- Lookup in the empty dict: absent. -/
theorem pyLookup_nil (h : PyHeap) (fuel : Nat) (k : PyVal) :
    pyLookup h fuel [] k = some none := by
  simp [pyLookup.eq_def]

/-- One step of the lookup scan. -/
theorem pyLookup_cons (h : PyHeap) (fuel : Nat) (k2 v2 : PyVal)
    (rest : List (PyVal × PyVal)) (k : PyVal) :
    pyLookup h fuel ((k2, v2) :: rest) k =
      match pyEqV h fuel k2 k with
      | none => none
      | some true => some (some v2)
      | some false => pyLookup h fuel rest k := by
  conv_lhs => rw [pyLookup.eq_def]

/-- All entries of the left dict checked: equal. -/
theorem pyEqEntries_nil (h : PyHeap) (fuel : Nat) (kvs2 : List (PyVal × PyVal)) :
    pyEqEntries h fuel [] kvs2 = some true := by
  simp [pyEqEntries.eq_def]

/-- One step of the entry loop. -/
theorem pyEqEntries_cons (h : PyHeap) (fuel : Nat) (kk v : PyVal)
    (rest kvs2 : List (PyVal × PyVal)) :
    pyEqEntries h fuel ((kk, v) :: rest) kvs2 =
      match pyLookup h fuel kvs2 kk with
      | none => none
      | some none => some false
      | some (some v2) =>
          match pyEqV h fuel v v2 with
          | none => none
          | some false => some false
          | some true => pyEqEntries h fuel rest kvs2 := by
  conv_lhs => rw [pyEqEntries.eq_def]

/-- A membership scan that completes negatively never skipped an identity
hit: the probed id is not on the stack. -/
theorem pyIn_false_not_mem (h : PyHeap) (fuel : Nat) :
    ∀ (stack : List Nat) (r : Nat), pyIn h fuel stack r = some false →
      r ∉ stack := by
  intro stack
  induction stack with
  | nil => intro r _ hmem; simp at hmem
  | cons s rest ih =>
      intro r hscan hmem
      rcases List.mem_cons.1 hmem with hsr | hmem2
      · subst hsr
        cases fuel with
        | zero => simp [pyIn, pyEqV_zero] at hscan
        | succ k => simp [pyIn, pyEqV_self] at hscan
      · rcases heq : pyEqV h fuel (.ref s) (.ref r) with _ | b
        · simp [pyIn, heq] at hscan
        · cases b with
          | false =>
              simp only [pyIn, heq] at hscan
              exact ih r hscan hmem2
          | true => simp [pyIn, heq] at hscan

/-- In a ranked heap, every element of a stored list/tuple is a valid value
of rank at most the rank of its container. -/
theorem ranked_elem_bound (h : PyHeap) (n : Nat) (rk : Nat → Nat)
    (hWF : RankedWF h n rk) (r : Nat) (hr : r < n) (t : Bool)
    (es : List PyVal) (hobj : h.objs r = .listO t es) :
    ∀ e ∈ es, refBound n e = true ∧ rkV rk e ≤ rk r := by
  intro e he
  cases e with
  | atom a => exact ⟨rfl, Nat.zero_le _⟩
  | ref c =>
      have hc : c ∈ objChildRefs (h.objs r) := by
        rw [hobj]
        simp only [objChildRefs]
        exact List.mem_flatMap.2 ⟨.ref c, he, by simp [valRefs]⟩
      obtain ⟨hcn, hck⟩ := hWF.2 r hr c hc
      exact ⟨by simpa [refBound] using hcn, by simp only [rkV]; exact hck⟩

/-- In a ranked heap, every key and every value of a stored dict is a valid
value of rank at most the rank of its container. -/
theorem ranked_entry_bound (h : PyHeap) (n : Nat) (rk : Nat → Nat)
    (hWF : RankedWF h n rk) (r : Nat) (hr : r < n)
    (kvs : List (PyVal × PyVal)) (hobj : h.objs r = .dictO kvs) :
    ∀ kv ∈ kvs, (refBound n kv.1 = true ∧ rkV rk kv.1 ≤ rk r) ∧
      (refBound n kv.2 = true ∧ rkV rk kv.2 ≤ rk r) := by
  intro kv hkv
  have hone : ∀ x : PyVal, (∀ c ∈ valRefs x, c ∈ objChildRefs (h.objs r)) →
      refBound n x = true ∧ rkV rk x ≤ rk r := by
    intro x hx
    cases x with
    | atom a => exact ⟨rfl, Nat.zero_le _⟩
    | ref c =>
        obtain ⟨hcn, hck⟩ := hWF.2 r hr c (hx c (by simp [valRefs]))
        exact ⟨by simpa [refBound] using hcn, by simp only [rkV]; exact hck⟩
  refine ⟨hone kv.1 ?_, hone kv.2 ?_⟩
  · intro c hc
    rw [hobj]
    simp only [objChildRefs]
    exact List.mem_flatMap.2 ⟨kv, hkv, List.mem_append.2 (Or.inl hc)⟩
  · intro c hc
    rw [hobj]
    simp only [objChildRefs]
    exact List.mem_flatMap.2 ⟨kv, hkv, List.mem_append.2 (Or.inr hc)⟩

/-- A successful dict-key lookup returns the value of some entry. -/
theorem pyLookup_found (h : PyHeap) (fuel : Nat) :
    ∀ (kvs : List (PyVal × PyVal)) (k v2 : PyVal),
      pyLookup h fuel kvs k = some (some v2) → ∃ kv ∈ kvs, kv.2 = v2 := by
  intro kvs
  induction kvs with
  | nil => intro k v2 hfind; rw [pyLookup_nil] at hfind; simp at hfind
  | cons kv rest ih =>
      intro k v2 hfind
      obtain ⟨k2, w⟩ := kv
      rw [pyLookup_cons] at hfind
      rcases heq : pyEqV h fuel k2 k with _ | b
      · rw [heq] at hfind; simp at hfind
      · cases b with
        | true =>
            rw [heq] at hfind
            obtain rfl : w = v2 := by simpa using hfind
            exact ⟨(k2, w), List.mem_cons_self _ _, rfl⟩
        | false =>
            rw [heq] at hfind
            obtain ⟨kv2, hkv2, hv⟩ := ih k v2 hfind
            exact ⟨kv2, List.mem_cons_of_mem _ hkv2, hv⟩

/-- On an acyclic ranked heap every `==` comparison completes (no
`RecursionError`) once the budget exceeds the rank sum of the compared
values: from a pair of containers the comparison only recurses into pairs of
components, whose rank sum is strictly smaller. -/
theorem pyEq_total (h : PyHeap) (n : Nat) (rk : Nat → Nat)
    (hWF : RankedWF h n rk) :
    ∀ fuel : Nat,
      (∀ v w : PyVal, refBound n v = true → refBound n w = true →
        rkV rk v + rkV rk w < fuel → (pyEqV h fuel v w).isSome = true) ∧
      (∀ (es fs : List PyVal) (A B : Nat),
        (∀ e ∈ es, refBound n e = true ∧ rkV rk e ≤ A) →
        (∀ e ∈ fs, refBound n e = true ∧ rkV rk e ≤ B) →
        A + B < fuel → (pyEqSeq h fuel es fs).isSome = true) ∧
      (∀ (kvs : List (PyVal × PyVal)) (k : PyVal) (A B : Nat),
        (∀ kv ∈ kvs, refBound n kv.1 = true ∧ rkV rk kv.1 ≤ A) →
        refBound n k = true → rkV rk k ≤ B →
        A + B < fuel → (pyLookup h fuel kvs k).isSome = true) ∧
      (∀ (kvs kvs2 : List (PyVal × PyVal)) (A B : Nat),
        (∀ kv ∈ kvs, (refBound n kv.1 = true ∧ rkV rk kv.1 ≤ A) ∧
          (refBound n kv.2 = true ∧ rkV rk kv.2 ≤ A)) →
        (∀ kv ∈ kvs2, (refBound n kv.1 = true ∧ rkV rk kv.1 ≤ B) ∧
          (refBound n kv.2 = true ∧ rkV rk kv.2 ≤ B)) →
        A + B < fuel → (pyEqEntries h fuel kvs kvs2).isSome = true) := by
  intro fuel
  induction fuel with
  | zero =>
      refine ⟨?_, ?_, ?_, ?_⟩
      · intro v w _ _ hlt; exact absurd hlt (Nat.not_lt_zero _)
      · intro es fs A B _ _ hlt; exact absurd hlt (Nat.not_lt_zero _)
      · intro kvs k A B _ _ _ hlt; exact absurd hlt (Nat.not_lt_zero _)
      · intro kvs kvs2 A B _ _ hlt; exact absurd hlt (Nat.not_lt_zero _)
  | succ k ih =>
      obtain ⟨_, ihSeq, _, ihEnt⟩ := ih
      have hV : ∀ v w : PyVal, refBound n v = true → refBound n w = true →
          rkV rk v + rkV rk w < k + 1 → (pyEqV h (k + 1) v w).isSome = true := by
        intro v w hv hw hsum
        by_cases hvw : v = w
        · rw [hvw, pyEqV_self]
          rfl
        · cases v with
          | atom a =>
              cases w with
              | atom b => simp [pyEqV.eq_def, hvw]
              | ref q => simp [pyEqV.eq_def, hvw]
          | ref r =>
              cases w with
              | atom b => simp [pyEqV.eq_def, hvw]
              | ref q =>
                  have hr : r < n := by simpa [refBound] using hv
                  have hq : q < n := by simpa [refBound] using hw
                  have hsum2 : rk r + rk q < k := by
                    simp only [rkV] at hsum; omega
                  rw [pyEqV_ref h k r q hvw]
                  cases hor : h.objs r with
                  | listO t es =>
                      cases hoq : h.objs q with
                      | listO t2 fs =>
                          have hes := ranked_elem_bound h n rk hWF r hr t es hor
                          have hfs := ranked_elem_bound h n rk hWF q hq t2 fs hoq
                          have hseq := ihSeq es fs (rk r) (rk q) hes hfs hsum2
                          show (if (t != t2) = true then some false
                            else if (!t && es.length != fs.length) = true
                              then some false
                            else pyEqSeq h k es fs).isSome = true
                          split
                          · rfl
                          · split
                            · rfl
                            · exact hseq
                      | dictO kvs2 => rfl
                      | customO j => rfl
                      | arrayO j => rfl
                      | opaqueO => rfl
                  | dictO kvs =>
                      cases hoq : h.objs q with
                      | listO t2 fs => rfl
                      | dictO kvs2 =>
                          have h1 := ranked_entry_bound h n rk hWF r hr kvs hor
                          have h2 := ranked_entry_bound h n rk hWF q hq kvs2 hoq
                          have hent := ihEnt kvs kvs2 (rk r) (rk q) h1 h2 hsum2
                          show (if (kvs.length != kvs2.length) = true
                              then some false
                            else pyEqEntries h k kvs kvs2).isSome = true
                          split
                          · rfl
                          · exact hent
                      | customO j => rfl
                      | arrayO j => rfl
                      | opaqueO => rfl
                  | customO j => cases hoq : h.objs q <;> rfl
                  | arrayO j => cases hoq : h.objs q <;> rfl
                  | opaqueO => cases hoq : h.objs q <;> rfl
      have hSeq : ∀ (es fs : List PyVal) (A B : Nat),
          (∀ e ∈ es, refBound n e = true ∧ rkV rk e ≤ A) →
          (∀ e ∈ fs, refBound n e = true ∧ rkV rk e ≤ B) →
          A + B < k + 1 → (pyEqSeq h (k + 1) es fs).isSome = true := by
        intro es
        induction es with
        | nil =>
            intro fs A B _ _ _
            cases fs with
            | nil => simp [pyEqSeq_nil]
            | cons f rest2 => simp [pyEqSeq_nil_cons]
        | cons e rest ihe =>
            intro fs A B h1 h2 hAB
            cases fs with
            | nil => simp [pyEqSeq_cons_nil]
            | cons f rest2 =>
                obtain ⟨he1, he2⟩ := h1 e (List.mem_cons_self _ _)
                obtain ⟨hf1, hf2⟩ := h2 f (List.mem_cons_self _ _)
                have hp := hV e f he1 hf1 (by omega)
                rw [pyEqSeq_cons]
                rcases heq : pyEqV h (k + 1) e f with _ | b
                · rw [heq] at hp; simp at hp
                · cases b with
                  | false => rfl
                  | true =>
                      exact ihe rest2 A B
                        (fun x hx => h1 x (List.mem_cons_of_mem _ hx))
                        (fun x hx => h2 x (List.mem_cons_of_mem _ hx)) hAB
      have hLook : ∀ (kvs : List (PyVal × PyVal)) (kk : PyVal) (A B : Nat),
          (∀ kv ∈ kvs, refBound n kv.1 = true ∧ rkV rk kv.1 ≤ A) →
          refBound n kk = true → rkV rk kk ≤ B →
          A + B < k + 1 → (pyLookup h (k + 1) kvs kk).isSome = true := by
        intro kvs
        induction kvs with
        | nil => intro kk A B _ _ _ _; simp [pyLookup_nil]
        | cons kv rest ihe =>
            intro kk A B h1 hk1 hk2 hAB
            obtain ⟨k2, w⟩ := kv
            obtain ⟨ha, hb⟩ := h1 (k2, w) (List.mem_cons_self _ _)
            have hb2 : rkV rk k2 ≤ A := hb
            have hp := hV k2 kk ha hk1 (by omega)
            rw [pyLookup_cons]
            rcases heq : pyEqV h (k + 1) k2 kk with _ | b
            · rw [heq] at hp; simp at hp
            · cases b with
              | true => rfl
              | false =>
                  exact ihe kk A B
                    (fun x hx => h1 x (List.mem_cons_of_mem _ hx)) hk1 hk2 hAB
      have hEnt : ∀ (kvs kvs2 : List (PyVal × PyVal)) (A B : Nat),
          (∀ kv ∈ kvs, (refBound n kv.1 = true ∧ rkV rk kv.1 ≤ A) ∧
            (refBound n kv.2 = true ∧ rkV rk kv.2 ≤ A)) →
          (∀ kv ∈ kvs2, (refBound n kv.1 = true ∧ rkV rk kv.1 ≤ B) ∧
            (refBound n kv.2 = true ∧ rkV rk kv.2 ≤ B)) →
          A + B < k + 1 → (pyEqEntries h (k + 1) kvs kvs2).isSome = true := by
        intro kvs
        induction kvs with
        | nil => intro kvs2 A B _ _ _; simp [pyEqEntries_nil]
        | cons kv rest ihe =>
            intro kvs2 A B h1 h2 hAB
            obtain ⟨kk, v⟩ := kv
            obtain ⟨⟨ha1, ha2⟩, hb1, hb2⟩ := h1 (kk, v) (List.mem_cons_self _ _)
            have ha2b : rkV rk kk ≤ A := ha2
            have hb2b : rkV rk v ≤ A := hb2
            have hfound := hLook kvs2 kk B A (fun x hx => (h2 x hx).1) ha1 ha2b
              (by omega)
            rw [pyEqEntries_cons]
            rcases hlk : pyLookup h (k + 1) kvs2 kk with _ | ov
            · rw [hlk] at hfound; simp at hfound
            · cases ov with
              | none => rfl
              | some v2 =>
                  obtain ⟨kv2, hkv2, hv2⟩ := pyLookup_found h (k + 1) kvs2 kk v2 hlk
                  have hv2a : refBound n v2 = true := by
                    rw [← hv2]; exact (h2 kv2 hkv2).2.1
                  have hv2b : rkV rk v2 ≤ B := by
                    rw [← hv2]; exact (h2 kv2 hkv2).2.2
                  have hpv := hV v v2 hb1 hv2a (by omega)
                  show (match pyEqV h (k + 1) v v2 with
                    | none => none
                    | some false => some false
                    | some true => pyEqEntries h (k + 1) rest kvs2).isSome = true
                  rcases heq : pyEqV h (k + 1) v v2 with _ | b
                  · rw [heq] at hpv; simp at hpv
                  · cases b with
                    | false => rfl
                    | true =>
                        exact ihe kvs2 A B
                          (fun x hx => h1 x (List.mem_cons_of_mem _ hx)) h2 hAB
      exact ⟨hV, hSeq, hLook, hEnt⟩

/-- On an acyclic ranked heap the membership scan completes once the budget
exceeds twice the heap size (the ranks of the compared containers are below
the heap size). -/
theorem pyIn_total (h : PyHeap) (n : Nat) (rk : Nat → Nat)
    (hWF : RankedWF h n rk) (fuel : Nat) :
    ∀ (stack : List Nat) (r : Nat), (∀ s ∈ stack, s < n) → r < n →
      2 * n < fuel → (pyIn h fuel stack r).isSome = true := by
  intro stack
  induction stack with
  | nil => intro r _ _ _; simp [pyIn]
  | cons s rest ih =>
      intro r hb hr hfuel
      have hs : s < n := hb s (List.mem_cons_self _ _)
      have hrk1 : rk s < n := hWF.1 s hs
      have hrk2 : rk r < n := hWF.1 r hr
      have hcmp := (pyEq_total h n rk hWF fuel).1 (.ref s) (.ref r)
        (by simpa [refBound] using hs) (by simpa [refBound] using hr)
        (by simp only [rkV]; omega)
      rcases heq : pyEqV h fuel (.ref s) (.ref r) with _ | b
      · rw [heq] at hcmp; simp at hcmp
      · cases b with
        | true => simp [pyIn, heq]
        | false =>
            simp only [pyIn, heq]
            exact ih r (fun x hx => hb x (List.mem_cons_of_mem _ hx)) hr hfuel

/-- On an acyclic ranked heap `jsoncopy` completes — result, never a
`RecursionError` — whenever the budget exceeds three times the heap size:
the descent stack only gains distinct valid ids (a completed negative scan
implies the probed id is new), so the descent depth is bounded by the heap
size, and along the way every membership scan has budget for its `==`
comparisons, which on acyclic data recurse along strictly decreasing
ranks. -/
theorem jsoncopy_ranked_total (h : PyHeap) (n : Nat) (rk : Nat → Nat)
    (hWF : RankedWF h n rk) :
    ∀ fuel : Nat,
      (∀ (d : PyVal) (stack : List Nat), refBound n d = true → stack.Nodup →
        (∀ s ∈ stack, s < n) → 3 * n + 2 ≤ fuel + stack.length →
        (jsoncopyF h fuel d (some stack)).isSome = true) ∧
      (∀ (elems : List PyVal) (stack : List Nat), elems.all (refBound n) = true →
        stack.Nodup → (∀ s ∈ stack, s < n) → 3 * n + 2 ≤ fuel + stack.length →
        (jsoncopyList h fuel elems stack).isSome = true) ∧
      (∀ (entries : List (PyVal × PyVal)) (stack : List Nat),
        (entries.all fun kv => refBound n kv.2) = true →
        stack.Nodup → (∀ s ∈ stack, s < n) → 3 * n + 2 ≤ fuel + stack.length →
        (jsoncopyDict h fuel entries stack).isSome = true) := by
  intro fuel
  induction fuel with
  | zero =>
      refine ⟨?_, ?_, ?_⟩
      · intro x stack _ hnd hb hle
        exact absurd hle (by have := nodup_bounded_length_le stack n hnd hb; omega)
      · intro x stack _ hnd hb hle
        exact absurd hle (by have := nodup_bounded_length_le stack n hnd hb; omega)
      · intro x stack _ hnd hb hle
        exact absurd hle (by have := nodup_bounded_length_le stack n hnd hb; omega)
  | succ g ih =>
      obtain ⟨ihP, ihQ, ihR⟩ := ih
      have hP : ∀ (d : PyVal) (stack : List Nat), refBound n d = true → stack.Nodup →
          (∀ s ∈ stack, s < n) → 3 * n + 2 ≤ (g + 1) + stack.length →
          (jsoncopyF h (g + 1) d (some stack)).isSome = true := by
        intro d stack hd hnd hb hle
        cases d with
        | atom a => simp [jsoncopyF]
        | ref r =>
            have hrn : r < n := by simpa [refBound] using hd
            have hlen : stack.length ≤ n := nodup_bounded_length_le stack n hnd hb
            have hbudget : 2 * n < g := by omega
            have hscan := pyIn_total h n rk hWF g stack r hb hrn hbudget
            rcases htest : pyIn h g stack r with _ | b
            · rw [htest] at hscan; simp at hscan
            · cases b with
              | true => simp [jsoncopyF, htest]
              | false =>
                  have hmem : r ∉ stack := pyIn_false_not_mem h g stack r htest
                  have hnd2 : (stack ++ [r]).Nodup := by
                    simp [List.nodup_append, hmem, hnd]
                  have hb2 : ∀ x ∈ stack ++ [r], x < n := by
                    intro x hx
                    rcases List.mem_append.1 hx with hx | hx
                    · exact hb x hx
                    · rw [List.mem_singleton.1 hx]; exact hrn
                  have hle2 : 3 * n + 2 ≤ g + (stack ++ [r]).length := by
                    simp only [List.length_append, List.length_singleton]
                    omega
                  cases hobj : h.objs r with
                  | listO t elems =>
                      have hall : elems.all (refBound n) = true := by
                        rw [List.all_eq_true]
                        intro e he
                        exact (ranked_elem_bound h n rk hWF r hrn t elems hobj e he).1
                      have hq := ihQ elems (stack ++ [r]) hall hnd2 hb2 hle2
                      simp [jsoncopyF, htest, hobj, Option.isSome_map', hq]
                  | dictO entries =>
                      have hall : (entries.all fun kv => refBound n kv.2) = true := by
                        rw [List.all_eq_true]
                        intro kv hkv
                        exact (ranked_entry_bound h n rk hWF r hrn entries hobj
                          kv hkv).2.1
                      have hq := ihR entries (stack ++ [r]) hall hnd2 hb2 hle2
                      simp [jsoncopyF, htest, hobj, Option.isSome_map', hq]
                  | customO j => simp [jsoncopyF, htest, hobj]
                  | arrayO j => simp [jsoncopyF, htest, hobj]
                  | opaqueO => simp [jsoncopyF, htest, hobj]
      refine ⟨hP, ?_, ?_⟩
      · intro elems
        induction elems with
        | nil => intro stack _ _ _ _; simp [jsoncopyList]
        | cons e rest ihe =>
            intro stack hall hnd hb hle
            rw [List.all_cons, Bool.and_eq_true] at hall
            have h1 := hP e stack hall.1 hnd hb hle
            have h2 := ihe stack hall.2 hnd hb hle
            rcases ho : jsoncopyF h (g + 1) e (some stack) with _ | j
            · rw [ho] at h1
              simp at h1
            · rcases ho2 : jsoncopyList h (g + 1) rest stack with _ | js
              · rw [ho2] at h2
                simp at h2
              · simp [jsoncopyList, ho, ho2]
      · intro entries
        induction entries with
        | nil => intro stack _ _ _ _; simp [jsoncopyDict]
        | cons kv rest ihe =>
            obtain ⟨k, v⟩ := kv
            intro stack hall hnd hb hle
            rw [List.all_cons, Bool.and_eq_true] at hall
            have h2 := ihe stack hall.2 hnd hb hle
            cases k with
            | atom a =>
                have h1 := hP v stack hall.1 hnd hb hle
                rcases ho : jsoncopyF h (g + 1) v (some stack) with _ | j
                · rw [ho] at h1
                  simp at h1
                · rcases ho2 : jsoncopyDict h (g + 1) rest stack with _ | js
                  · rw [ho2] at h2
                    simp at h2
                  · simp [jsoncopyDict, ho, ho2]
            | ref rr => simpa [jsoncopyDict] using h2

/-- The root call (`stack=None`) of `jsoncopy` completes on an acyclic
ranked heap with budget `3 * n + 2`. -/
theorem jsoncopy_ranked_root (h : PyHeap) (n : Nat) (rk : Nat → Nat)
    (hWF : RankedWF h n rk) (d : PyVal) (hd : refBound n d = true) :
    (jsoncopyF h (3 * n + 2) d none).isSome = true := by
  cases d with
  | atom a => simp [jsoncopyF]
  | ref r =>
      have hrn : r < n := by simpa [refBound] using hd
      have hb1 : ∀ x ∈ [r], x < n := by
        intro x hx
        rw [List.mem_singleton.1 hx]
        exact hrn
      have hle1 : 3 * n + 2 ≤ (3 * n + 1) + ([r] : List Nat).length := by simp
      show (jsoncopyF h (3 * n + 1 + 1) (.ref r) none).isSome = true
      cases hobj : h.objs r with
      | listO t elems =>
          have hall : elems.all (refBound n) = true := by
            rw [List.all_eq_true]
            intro e he
            exact (ranked_elem_bound h n rk hWF r hrn t elems hobj e he).1
          have hq := (jsoncopy_ranked_total h n rk hWF (3 * n + 1)).2.1 elems [r]
            hall (by simp) hb1 hle1
          simp [jsoncopyF, hobj, Option.isSome_map', hq]
      | dictO entries =>
          have hall : (entries.all fun kv => refBound n kv.2) = true := by
            rw [List.all_eq_true]
            intro kv hkv
            exact (ranked_entry_bound h n rk hWF r hrn entries hobj kv hkv).2.1
          have hq := (jsoncopy_ranked_total h n rk hWF (3 * n + 1)).2.2 entries [r]
            hall (by simp) hb1 hle1
          simp [jsoncopyF, hobj, Option.isSome_map', hq]
      | customO j => simp [jsoncopyF, hobj]
      | arrayO j => simp [jsoncopyF, hobj]
      | opaqueO => simp [jsoncopyF, hobj]

/-- The object stored at id 0 of the mutual cycle. -/
theorem mutualCycleHeap_objs0 : mutualCycleHeap.objs 0 = .listO false [.ref 1] :=
  rfl

/-- The object stored at id 1 of the mutual cycle. -/
theorem mutualCycleHeap_objs1 : mutualCycleHeap.objs 1 = .listO false [.ref 0] :=
  rfl

/-- Comparing the two halves of the mutual cycle `a = [n]`, `n = [a]`
recurses forever: at every budget the comparison is a `RecursionError`. -/
theorem pyEq_mutualCycle_none :
    ∀ fuel, pyEqV mutualCycleHeap fuel (.ref 0) (.ref 1) = none ∧
      pyEqV mutualCycleHeap fuel (.ref 1) (.ref 0) = none := by
  intro fuel
  induction fuel with
  | zero => exact ⟨pyEqV_zero _ _ _, pyEqV_zero _ _ _⟩
  | succ k ih =>
      constructor
      · rw [pyEqV_ref mutualCycleHeap k 0 1 (by decide), mutualCycleHeap_objs0,
          mutualCycleHeap_objs1]
        simp [pyEqSeq_cons, ih.2]
      · rw [pyEqV_ref mutualCycleHeap k 1 0 (by decide), mutualCycleHeap_objs0,
          mutualCycleHeap_objs1]
        simp [pyEqSeq_cons, ih.1]

/-- `jsoncopy` on the root of the mutual cycle `a = [n]`, `n = [a]` raises
`RecursionError` at every recursion limit: the membership test for `n`
compares `n == a` and recurses forever. -/
theorem mutualCycle_raises : RaisesAtEveryLimit mutualCycleHeap (.ref 0) := by
  intro fuel
  match fuel with
  | 0 => simp [jsoncopyF]
  | g + 1 =>
      have hel : ∀ m, jsoncopyF mutualCycleHeap m (.ref 1) (some [0]) = none := by
        intro m
        match m with
        | 0 => simp [jsoncopyF]
        | j + 1 =>
            have hcmp := (pyEq_mutualCycle_none j).1
            simp [jsoncopyF, pyIn, hcmp]
      simp [jsoncopyF, jsoncopyList, mutualCycleHeap_objs0, hel g]

/-- C10 counterexample: the mutually cyclic pair `a = [n]`, `n = [a]` — a
finite, well-formed, cyclic list structure squarely inside the claim's
scope — on which `jsoncopy(a)` does not terminate with a result at any
recursion limit: the `==` comparison inside the membership test `n in [a]`
recurses forever, so the call raises `RecursionError` instead of returning
a value (in particular it never replaces the revisited container by
`null`). -/
theorem c10_counterexample :
    refBound 2 (.ref 0) = true ∧
    mutualCycleHeap.objs 0 = .listO false [.ref 1] ∧
    mutualCycleHeap.objs 1 = .listO false [.ref 0] ∧
    RaisesAtEveryLimit mutualCycleHeap (.ref 0) :=
  ⟨by decide, rfl, rfl, mutualCycle_raises⟩

/-- C10 (amended): what the `==`-based cycle guard of the permissive
serializer actually guarantees.  (1) JSON atoms are returned unchanged.
(2) Unserializable objects degrade to `null`.  (3) A container whose
membership scan over the descent stack completes with a hit is replaced by
`null` rather than recursed into — in particular any container identical to
a stacked ancestor whose scan completes, via the identity fast path.  (4) A
`RecursionError` raised by a `==` comparison inside the scan propagates out
of `jsoncopy`.  (5) On acyclic structures `jsoncopy` terminates: on a
ranked heap of `n` objects, budget `3 * n + 2` suffices for the root call
to return a result.  (6) The direct self-loop `x = [x]` maps to `[null]`,
the identity fast path cutting the revisit.  (7) But the guard compares by
`==`, not by identity: for `p = [c]` with `c = [c]`, the first visit of `c`
already deep-equals the stacked `p`, so `jsoncopy(p)` returns `[null]`
without ever recursing into `c`.  (8) And termination fails on cyclic data:
on the mutual cycle `a = [n]`, `n = [a]`, `jsoncopy(a)` raises
`RecursionError` at every recursion limit. -/
theorem c10_jsoncopy_guard_semantics :
    (∀ (h : PyHeap) (fuel : Nat) (a : PyAtom) (s : Option (List Nat)),
      jsoncopyF h fuel (.atom a) s = some (atomJ a)) ∧
    (∀ (h : PyHeap) (fuel : Nat) (r : Nat), h.objs r = .opaqueO →
      jsoncopyF h (fuel + 1) (.ref r) none = some .nullJ) ∧
    (∀ (h : PyHeap) (fuel : Nat) (r : Nat) (stack : List Nat),
      pyIn h fuel stack r = some true →
      jsoncopyF h (fuel + 1) (.ref r) (some stack) = some .nullJ) ∧
    (∀ (h : PyHeap) (fuel : Nat) (r : Nat) (stack : List Nat),
      pyIn h fuel stack r = none →
      jsoncopyF h (fuel + 1) (.ref r) (some stack) = none) ∧
    (∀ (h : PyHeap) (n : Nat) (rk : Nat → Nat) (d : PyVal),
      RankedWF h n rk → refBound n d = true →
      (jsoncopyF h (3 * n + 2) d none).isSome = true) ∧
    jsoncopyF cycHeap 4 (.ref 0) none = some (.arrJ [.nullJ]) ∧
    jsoncopyF spuriousHeap 6 (.ref 0) none = some (.arrJ [.nullJ]) ∧
    RaisesAtEveryLimit mutualCycleHeap (.ref 0) := by
  refine ⟨?_, ?_, ?_, ?_, ?_, ?_, ?_, mutualCycle_raises⟩
  · intro h fuel a s
    simp [jsoncopyF]
  · intro h fuel r hobj
    simp [jsoncopyF, hobj]
  · intro h fuel r stack htrue
    simp [jsoncopyF, htrue]
  · intro h fuel r stack hnone
    simp [jsoncopyF, hnone]
  · exact fun h n rk d hWF hd => jsoncopy_ranked_root h n rk hWF d hd
  · simp [jsoncopyF, jsoncopyList, pyIn, pyEqV.eq_def, cycHeap]
  · simp [jsoncopyF, jsoncopyList, pyIn, pyEqV.eq_def, pyEqSeq.eq_def, spuriousHeap]

/-- C10 witness: the acyclic two-object heap `lin2Heap` with its rank
satisfies the ranked premises and `jsoncopy` completes on it within the
stated budget; and a concretely completed membership hit — the self-loop
`x = [x]` probed against the stack `[x]` — is cut to `null`. -/
theorem c10_witness :
    (RankedWF lin2Heap 2 lin2Rank ∧ refBound 2 (.ref 0) = true) ∧
    (jsoncopyF lin2Heap (3 * 2 + 2) (.ref 0) none).isSome = true ∧
    (pyIn cycHeap 2 [0] 0 = some true ∧
      jsoncopyF cycHeap (2 + 1) (.ref 0) (some [0]) = some .nullJ) := by
  have hWF : RankedWF lin2Heap 2 lin2Rank := by
    constructor
    · decide
    · decide
  have hIn : pyIn cycHeap 2 [0] 0 = some true := by
    simp [pyIn, pyEqV.eq_def]
  exact ⟨⟨hWF, by decide⟩,
    c10_jsoncopy_guard_semantics.2.2.2.2.1 lin2Heap 2 lin2Rank (.ref 0) hWF
      (by decide),
    hIn, c10_jsoncopy_guard_semantics.2.2.1 cycHeap 2 0 [0] hIn⟩

end Baukit
